import Mathlib

/-!
Shallow embedding of the poker-simulation core (deck, hand evaluator,
decision policy, betting actions, showdown resolution) from the
repository's `src/deck.py`, `src/player.py` and `src/game.py`, together
with theorems settling the frozen claims about it.

Conventions used throughout:
* Python `float` chip amounts are modelled as exact rationals (`ℚ`).
* Python functions that can raise an uncaught exception on some input
  (`IndexError`, `StopIteration`, `ZeroDivisionError`) are modelled as
  `Option`-valued functions, `none` marking the raising executions.
* Python's stable sorts (`sorted`, `list.sort`, with or without
  `reverse=True`) are modelled with `List.insertionSort`, which is a
  stable sort, using the corresponding (total, reflexive) relation.
* `collections.Counter` iterates its keys in first-encounter order; the
  helper `firstOcc` reproduces that order.
-/

namespace Poker

/-- The four suits, in Python's `Suit` declaration order. -/
inductive Suit where
  | hearts
  | diamonds
  | clubs
  | spades
deriving DecidableEq, Repr, Fintype

/-- The thirteen ranks, in Python's `Rank` declaration order (Two .. Ace). -/
inductive Rank where
  | two
  | three
  | four
  | five
  | six
  | seven
  | eight
  | nine
  | ten
  | jack
  | queen
  | king
  | ace
deriving DecidableEq, Repr, Fintype

/-- `list(Rank).index(r)`: the ordinal of a rank, Two = 0 .. Ace = 12. -/
def Rank.idx : Rank → Nat
  | .two => 0
  | .three => 1
  | .four => 2
  | .five => 3
  | .six => 4
  | .seven => 5
  | .eight => 6
  | .nine => 7
  | .ten => 8
  | .jack => 9
  | .queen => 10
  | .king => 11
  | .ace => 12

/-- A playing card (`Card` dataclass: rank and suit). -/
structure Card where
  rank : Rank
  suit : Suit
deriving DecidableEq, Repr

/-- Python's `Suit` iteration order, used by `for suit in Suit` loops. -/
def suitList : List Suit := [.hearts, .diamonds, .clubs, .spades]

/-- Python's `Rank` iteration order, ascending. -/
def rankListAsc : List Rank :=
  [.two, .three, .four, .five, .six, .seven, .eight, .nine, .ten, .jack,
   .queen, .king, .ace]

/-- The ten hand categories of the `HandRank` IntEnum. -/
inductive HandRank where
  | HIGH_CARD
  | PAIR
  | TWO_PAIR
  | THREE_OF_A_KIND
  | STRAIGHT
  | FLUSH
  | FULL_HOUSE
  | FOUR_OF_A_KIND
  | STRAIGHT_FLUSH
  | ROYAL_FLUSH
deriving DecidableEq, Repr

/-- The integer value of each `HandRank` member (1 .. 10). -/
def HandRank.val : HandRank → Nat
  | .HIGH_CARD => 1
  | .PAIR => 2
  | .TWO_PAIR => 3
  | .THREE_OF_A_KIND => 4
  | .STRAIGHT => 5
  | .FLUSH => 6
  | .FULL_HOUSE => 7
  | .FOUR_OF_A_KIND => 8
  | .STRAIGHT_FLUSH => 9
  | .ROYAL_FLUSH => 10

/-- `HandStrength` dataclass: a category plus the tie-break ordinal list. -/
structure HandStrength where
  rank : HandRank
  highCards : List Nat
deriving DecidableEq, Repr

/-- Relation for ascending card sorts (`sorted(cards)`/`key=rank index`). -/
def cardLe (a b : Card) : Prop := a.rank.idx ≤ b.rank.idx

/-- Relation for descending card sorts (`sorted(cards, reverse=True)`). -/
def cardGe (a b : Card) : Prop := b.rank.idx ≤ a.rank.idx

instance : DecidableRel cardLe := fun a b =>
  inferInstanceAs (Decidable (a.rank.idx ≤ b.rank.idx))

instance : DecidableRel cardGe := fun a b =>
  inferInstanceAs (Decidable (b.rank.idx ≤ a.rank.idx))

/-- `sorted(cards, reverse=True)`: stable descending sort by rank ordinal. -/
def sortDesc (cards : List Card) : List Card := List.insertionSort cardGe cards

/-- `sorted(cards)` (compares by rank only): stable ascending sort. -/
def sortAsc (cards : List Card) : List Card := List.insertionSort cardLe cards

/-- The multiplicity of rank `r` in a card list (a `Counter` entry). -/
def countRank (r : Rank) (cards : List Card) : Nat :=
  (cards.filter (fun c => c.rank = r)).length

/-- Deduplication keeping first occurrences: the key order of
`Counter(card.rank for card in cards)`. -/
def firstOccAux (seen : List Rank) : List Rank → List Rank
  | [] => []
  | r :: rs =>
    if r ∈ seen then firstOccAux seen rs else r :: firstOccAux (r :: seen) rs

/-- First-encounter-ordered list of distinct ranks of a rank list. -/
def firstOcc (l : List Rank) : List Rank := firstOccAux [] l

/-- `Counter(card.rank for card in cards).items()` as an ordered list. -/
def rankCounts (cards : List Card) : List (Rank × Nat) :=
  (firstOcc (cards.map (fun c => c.rank))).map (fun r => (r, countRank r cards))

/-- `sorted(set(card.rank for card in cards), key=rank index)`: the
distinct ranks in ascending ordinal order. -/
def distinctRanksAsc (cards : List Card) : List Rank :=
  rankListAsc.filter (fun r => cards.any (fun c => c.rank = r))

/-- The ranks of the Ace-low wheel straight checked by `_check_straight`. -/
def wheelRanks : List Rank := [.ace, .two, .three, .four, .five]

/-- The inner loop of `_check_straight`: scan ascending distinct ranks for
the first window of five consecutive ordinals (lowest window first, as the
Python loop iterates `i` upward). -/
def findRun : List Rank → Option (List Rank)
  | r1 :: r2 :: r3 :: r4 :: r5 :: rest =>
    if r2.idx = r1.idx + 1 ∧ r3.idx = r2.idx + 1 ∧ r4.idx = r3.idx + 1 ∧
        r5.idx = r4.idx + 1 then
      some [r1, r2, r3, r4, r5]
    else
      findRun (r2 :: r3 :: r4 :: r5 :: rest)
  | _ => none

/-- `Player._check_straight`. The Ace-low branch returns all wheel-rank
cards sorted ascending (no truncation); the regular branch returns the
five lowest cards of the first (lowest) consecutive run found. -/
def checkStraight (cards : List Card) : Option (List Card) :=
  let ranks := distinctRanksAsc cards
  if Rank.ace ∈ ranks ∧ Rank.two ∈ ranks ∧ Rank.three ∈ ranks ∧
      Rank.four ∈ ranks ∧ Rank.five ∈ ranks then
    some (sortAsc (cards.filter (fun c => c.rank ∈ wheelRanks)))
  else
    match findRun ranks with
    | some w => some ((sortAsc (cards.filter (fun c => c.rank ∈ w))).take 5)
    | none => none

/-- `Player._check_straight_flush`: first suit (in `Suit` order) whose
cards, sorted ascending by rank, contain a straight. -/
def checkStraightFlush (cards : List Card) : Option (List Card) :=
  suitList.findSome? (fun s =>
    checkStraight (sortAsc (cards.filter (fun c => c.suit = s))))

/-- `Player._check_four_of_a_kind`. The outer `Option` is `none` exactly
when the Python code raises `StopIteration` (no kicker exists); the inner
`Option` is the function's return value. -/
def checkFourOfAKind (cards : List Card) : Option (Option (List Card)) :=
  match (rankCounts cards).find? (fun rc => rc.2 = 4) with
  | some rc =>
    match cards.find? (fun c => ¬ c.rank = rc.1) with
    | some kicker =>
      some (some (cards.filter (fun c => c.rank = rc.1) ++ [kicker]))
    | none => none
  | none => some none

/-- The scanning loop of `_check_full_house`: first rank with count ≥ 3
becomes the trips rank; the first other qualifying rank with count ≥ 2
becomes the pair rank (`elif`, so a second count-≥3 rank can fill it). -/
def fhScan : List (Rank × Nat) → Option Rank → Option Rank →
    Option Rank × Option Rank
  | [], t, p => (t, p)
  | rc :: rest, t, p =>
    if 3 ≤ rc.2 ∧ t = none then fhScan rest (some rc.1) p
    else if 2 ≤ rc.2 ∧ p = none then fhScan rest t (some rc.1)
    else fhScan rest t p

/-- `Player._check_full_house`. -/
def checkFullHouse (cards : List Card) : Option (List Card) :=
  match fhScan (rankCounts cards) none none with
  | (some t, some p) =>
    some ((cards.filter (fun c => c.rank = t)).take 3 ++
          (cards.filter (fun c => c.rank = p)).take 2)
  | _ => none

/-- `Player._check_flush`: first suit with at least five cards; returns
the first five of them (input order, i.e. descending by rank here). -/
def checkFlush (cards : List Card) : Option (List Card) :=
  suitList.findSome? (fun s =>
    let suited := cards.filter (fun c => c.suit = s)
    if 5 ≤ suited.length then some (suited.take 5) else none)

/-- `Player._check_three_of_a_kind`. -/
def checkThreeOfAKind (cards : List Card) : Option (List Card) :=
  match (rankCounts cards).find? (fun rc => 3 ≤ rc.2) with
  | some rc =>
    some ((cards.filter (fun c => c.rank = rc.1)).take 3 ++
          (cards.filter (fun c => ¬ c.rank = rc.1)).take 2)
  | none => none

/-- `Player._check_two_pair`. Outer `none` models the `StopIteration`
raised when no kicker outside the two pair ranks exists. -/
def checkTwoPair (cards : List Card) : Option (Option (List Card)) :=
  match (rankCounts cards).filter (fun rc => 2 ≤ rc.2) with
  | rc1 :: rc2 :: _ =>
    match cards.find? (fun c => ¬ c.rank = rc1.1 ∧ ¬ c.rank = rc2.1) with
    | some kicker =>
      some (some ((cards.filter (fun c => c.rank = rc1.1)).take 2 ++
                  (cards.filter (fun c => c.rank = rc2.1)).take 2 ++ [kicker]))
    | none => none
  | _ => some none

/-- `Player._check_pair`. -/
def checkPair (cards : List Card) : Option (List Card) :=
  match (rankCounts cards).find? (fun rc => 2 ≤ rc.2) with
  | some rc =>
    some ((cards.filter (fun c => c.rank = rc.1)).take 2 ++
          (cards.filter (fun c => ¬ c.rank = rc.1)).take 3)
  | none => none

/-- The default high-card result of `_evaluate_cards`: the top five
ranks of the descending-sorted cards. -/
def highCardOf (sorted : List Card) : HandStrength :=
  ⟨.HIGH_CARD, (sorted.take 5).map (fun c => c.rank.idx)⟩

/-- Pair stage of `_evaluate_cards` (a `some (c :: rest)` pattern models
Python's walrus-truthiness: `None` and the empty list both fall through). -/
def evalPairStage (sorted : List Card) : HandStrength :=
  match checkPair sorted with
  | some (c :: rest) =>
    if (c :: rest).length = 2 then
      ⟨.PAIR, ((c :: rest).take 2).map (fun x => x.rank.idx)⟩
    else highCardOf sorted
  | _ => highCardOf sorted

/-- Two-pair stage of `_evaluate_cards`; `none` when the detector raises. -/
def evalTwoPairStage (sorted : List Card) : Option HandStrength :=
  match checkTwoPair sorted with
  | none => none
  | some (some (c :: rest)) =>
    some (if (c :: rest).length = 4 then
            ⟨.TWO_PAIR, ((c :: rest).take 4).map (fun x => x.rank.idx)⟩
          else highCardOf sorted)
  | some _ => some (evalPairStage sorted)

/-- Three-of-a-kind stage of `_evaluate_cards`. -/
def evalThreeKindStage (sorted : List Card) : Option HandStrength :=
  match checkThreeOfAKind sorted with
  | some (c :: rest) =>
    some (if (c :: rest).length = 3 then ⟨.THREE_OF_A_KIND, [c.rank.idx]⟩
          else highCardOf sorted)
  | _ => evalTwoPairStage sorted

/-- Straight stage of `_evaluate_cards`. -/
def evalStraightStage (sorted : List Card) : Option HandStrength :=
  match checkStraight sorted with
  | some (c :: rest) =>
    some (if (c :: rest).length = 5 then ⟨.STRAIGHT, [c.rank.idx]⟩
          else highCardOf sorted)
  | _ => evalThreeKindStage sorted

/-- Flush stage of `_evaluate_cards`. -/
def evalFlushStage (sorted : List Card) : Option HandStrength :=
  match checkFlush sorted with
  | some (c :: rest) =>
    some (if (c :: rest).length = 5 then
            ⟨.FLUSH, ((c :: rest).take 5).map (fun x => x.rank.idx)⟩
          else highCardOf sorted)
  | _ => evalStraightStage sorted

/-- Full-house stage of `_evaluate_cards`. -/
def evalFullHouseStage (sorted : List Card) : Option HandStrength :=
  match checkFullHouse sorted with
  | some (c :: rest) =>
    some (if (c :: rest).length = 5 then ⟨.FULL_HOUSE, [c.rank.idx]⟩
          else highCardOf sorted)
  | _ => evalFlushStage sorted

/-- Four-of-a-kind stage of `_evaluate_cards`. -/
def evalFourKindStage (sorted : List Card) : Option HandStrength :=
  match checkFourOfAKind sorted with
  | none => none
  | some (some (c :: rest)) =>
    some (if (c :: rest).length = 4 then ⟨.FOUR_OF_A_KIND, [c.rank.idx]⟩
          else highCardOf sorted)
  | some _ => evalFullHouseStage sorted

/-- `Player._evaluate_cards`: sort descending, then test the categories
strongest first. A straight flush whose first (lowest, as the check
returns ascending lists) card is an Ace would be a royal flush. -/
def evaluateCards (cards : List Card) : Option HandStrength :=
  let sorted := sortDesc cards
  match checkStraightFlush sorted with
  | some (c :: rest) =>
    some (if (c :: rest).length = 5 then
            (if c.rank = Rank.ace then ⟨.ROYAL_FLUSH, []⟩
             else ⟨.STRAIGHT_FLUSH, [c.rank.idx]⟩)
          else highCardOf sorted)
  | _ => evalFourKindStage sorted

/-- `Player.evaluate_hand`: pre-flop heuristic when there are no community
cards (raising `IndexError` when fewer than two hole cards are held,
modelled by `none`), otherwise the full evaluator on hole + community.
The fold with `Nat.max 0` equals Python's `max` on the nonempty list of
(nonnegative) rank ordinals. -/
def evaluateHand (holeCards community : List Card) : Option HandStrength :=
  if community.isEmpty then
    match holeCards with
    | c0 :: c1 :: _ =>
      if c0.rank = c1.rank then
        if Rank.ten.idx ≤ c0.rank.idx then some ⟨.PAIR, [c0.rank.idx]⟩
        else some ⟨.HIGH_CARD, [c0.rank.idx]⟩
      else
        let highCard := (holeCards.map (fun c => c.rank.idx)).foldl Nat.max 0
        if Rank.jack.idx ≤ highCard then some ⟨.HIGH_CARD, [highCard]⟩
        else some ⟨.HIGH_CARD, [0]⟩
    | _ => none
  else evaluateCards (holeCards ++ community)

/-! ### Deck (`src/deck.py`) -/

/-- `Deck._create_deck()` order: `[Card(rank, suit) for suit in Suit for
rank in Rank]`, suit-major, rank-minor. -/
def fullDeck : List Card :=
  suitList.flatMap (fun s => rankListAsc.map (fun r => Card.mk r s))

/-- The deck: an ordered remaining sequence plus the discarded set. -/
structure Deck where
  cards : List Card
  discarded : Finset Card
deriving DecidableEq

/-- `Deck.__init__` / `_create_deck`: all 52 cards, no discards. -/
def Deck.new : Deck := ⟨fullDeck, ∅⟩

/-- `Deck.remaining()`. -/
def Deck.remaining (d : Deck) : Nat := d.cards.length

/-- `Deck.draw()`: pop the last card and move it to the discarded set,
or return `none` on an empty deck. -/
def Deck.draw (d : Deck) : Option Card × Deck :=
  match d.cards.getLast? with
  | none => (none, d)
  | some c => (some c, ⟨d.cards.dropLast, insert c d.discarded⟩)

/-- `Deck.deal_specific_card(rank, suit)`: remove the named card (first
occurrence, as `list.remove`) and discard it if present, else signal
not-found and leave the deck untouched. -/
def Deck.dealSpecificCard (d : Deck) (r : Rank) (s : Suit) :
    Option Card × Deck :=
  let c : Card := ⟨r, s⟩
  if c ∈ d.cards then (some c, ⟨d.cards.erase c, insert c d.discarded⟩)
  else (none, d)

/-- One deck operation. `random.shuffle` is nondeterministic, so `shuffle`
carries the resulting order; an order that is not a permutation of the
current cards is ignored (it cannot arise). `reset` recreates the 52
cards, clears discards and shuffles. -/
inductive DeckOp where
  | shuffle (order : List Card)
  | draw
  | dealSpecific (r : Rank) (s : Suit)
  | reset (order : List Card)

/-- Apply one deck operation. -/
def applyDeckOp (d : Deck) : DeckOp → Deck
  | .shuffle order => if order.Perm d.cards then ⟨order, d.discarded⟩ else d
  | .draw => d.draw.2
  | .dealSpecific r s => (d.dealSpecificCard r s).2
  | .reset order => if order.Perm fullDeck then ⟨order, ∅⟩ else ⟨fullDeck, ∅⟩

/-- Apply a sequence of deck operations to a fresh deck. -/
def runDeckOps (ops : List DeckOp) : Deck := ops.foldl applyDeckOp Deck.new

/-- The deck invariant claimed in the spec: remaining plus discarded is
52, the remaining sequence has no duplicates, and no card is in both. -/
def DeckInv (d : Deck) : Prop :=
  d.remaining + d.discarded.card = 52 ∧ d.cards.Nodup ∧
    ∀ c ∈ d.cards, c ∉ d.discarded

/-! ### Player state and decision policy (`src/player.py`) -/

/-- The mutable `Player` object. Chip amounts are rationals. -/
structure Player where
  name : String
  stack : ℚ
  holeCards : List Card
  currentBet : ℚ
  isActive : Bool
  position : String
  positionIndex : Int
  folded : Bool
  numPlayers : Nat
deriving DecidableEq

/-- `Player.reset_hand()`: clear per-hand fields, keep stack/position. -/
def Player.resetHand (p : Player) : Player :=
  { p with holeCards := [], currentBet := 0, isActive := true, folded := false }

/-- `Player.receive_card(card)`. -/
def Player.receiveCard (c : Card) (p : Player) : Player :=
  { p with holeCards := p.holeCards ++ [c] }

/-- The `position_ranks` table of `make_decision`, with `dict.get`
default 0 for unknown labels. -/
def positionRank (pos : String) : Nat :=
  if pos = "BTN" then 5
  else if pos = "CO" then 4
  else if pos = "MP" then 3
  else if pos = "UTG" then 2
  else if pos = "BB" then 1
  else if pos = "SB" then 0
  else 0

/-- `has_pair` of `_preflop_strategy`: exactly two hole cards of equal
rank. -/
def hasPocketPair (p : Player) : Bool :=
  match p.holeCards with
  | [a, b] => a.rank = b.rank
  | _ => false

/-- `high_cards` of `_preflop_strategy`: the hole cards of rank Ace,
King or Queen. -/
def preflopHighCards (p : Player) : List Card :=
  p.holeCards.filter (fun c =>
    c.rank = Rank.ace ∨ c.rank = Rank.king ∨ c.rank = Rank.queen)

/-- `Player._preflop_strategy`. -/
def preflopStrategy (p : Player) (toCall pot : ℚ) (isLate : Bool) :
    String × ℚ :=
  let hasPair : Bool := hasPocketPair p
  let highCards := preflopHighCards p
  if hasPair then
    if toCall = 0 then ("raise", min (pot * 0.75) p.stack)
    else if toCall ≤ p.stack * 0.1 then ("call", toCall)
    else ("fold", 0)
  else if 1 ≤ highCards.length then
    if isLate then
      if toCall = 0 then ("raise", min (pot * 0.5) p.stack)
      else if toCall ≤ p.stack * 0.05 then ("call", toCall)
      else ("fold", 0)
    else ("fold", 0)
  else
    if toCall = 0 then ("call", 0)
    else ("fold", 0)

/-- `Player._postflop_strategy`. -/
def postflopStrategy (p : Player) (hs : HandStrength) (toCall pot : ℚ)
    (isLate : Bool) : String × ℚ :=
  if HandRank.THREE_OF_A_KIND.val ≤ hs.rank.val then
    if toCall = 0 then ("raise", min pot p.stack)
    else if toCall ≤ p.stack * 0.3 then ("call", toCall)
    else ("fold", 0)
  else if HandRank.PAIR.val ≤ hs.rank.val ∧ isLate then
    if toCall = 0 then ("raise", min (pot * 0.5) p.stack)
    else if toCall ≤ p.stack * 0.1 then ("call", toCall)
    else ("fold", 0)
  else
    if toCall = 0 then ("call", 0)
    else if toCall ≤ p.stack * 0.05 then ("call", toCall)
    else ("fold", 0)

/-- `Player.make_decision(to_call, pot, community_cards)`: `none` models
the exception propagated from `evaluate_hand` (which is always computed
first). A `None`/empty community list selects the pre-flop strategy. -/
def makeDecision (p : Player) (toCall pot : ℚ) (community : List Card) :
    Option (String × ℚ) :=
  if toCall > p.stack then some ("fold", 0)
  else
    match evaluateHand p.holeCards community with
    | none => none
    | some hs =>
      let isLate : Bool := 4 ≤ positionRank p.position
      if community.isEmpty then some (preflopStrategy p toCall pot isLate)
      else some (postflopStrategy p hs toCall pot isLate)

/-! ### Game state and operations (`src/game.py`) -/

/-- The `GameStatistics` dataclass. -/
structure GameStatistics where
  handsPlayed : Nat
  handsWon : Nat
  totalProfit : ℚ
  bestHand : Option HandStrength
  allInCount : Nat
  foldCount : Nat
  callCount : Nat
  raiseCount : Nat
deriving DecidableEq

/-- The default-constructed `GameStatistics()` of the defaultdict. -/
def emptyStats : GameStatistics := ⟨0, 0, 0, none, 0, 0, 0, 0⟩

/-- Look up a player's statistics (`defaultdict` read). -/
def getStat (stats : List (String × GameStatistics)) (n : String) :
    GameStatistics :=
  (((stats.find? (fun e => e.1 = n)).map (fun e => e.2)).getD emptyStats)

/-- Update a player's statistics in place, materialising the defaultdict
entry on first write. -/
def setStat (stats : List (String × GameStatistics)) (n : String)
    (f : GameStatistics → GameStatistics) : List (String × GameStatistics) :=
  if stats.any (fun e => e.1 = n) then
    stats.map (fun e => if e.1 = n then (e.1, f e.2) else e)
  else stats ++ [(n, f emptyStats)]

/-- The `PokerGame` object state. -/
structure GameState where
  numPlayers : Nat
  initialStack : ℚ
  smallBlind : ℚ
  bigBlind : ℚ
  fourCardFlop : Bool
  deck : Deck
  players : List Player
  community : List Card
  pot : ℚ
  currentBet : ℚ
  buttonPos : Nat
  stats : List (String × GameStatistics)
deriving DecidableEq

/-- In-place mutation of the player object at list position `i`. -/
def updateAt (i : Nat) (f : Player → Player) : List Player → List Player
  | [] => []
  | p :: ps =>
    match i with
    | 0 => f p :: ps
    | Nat.succ j => p :: updateAt j f ps

/-- The sum of all stacks plus the pot: the quantity conserved within a
hand. -/
def chipTotal (g : GameState) : ℚ :=
  (g.players.map (fun p => p.stack)).sum + g.pot

/-- The stack of the player at seat `i` (0 outside the table). -/
def stackAt (g : GameState) (i : Nat) : ℚ :=
  ((g.players[i]?).map (fun p => p.stack)).getD 0

/-- The action-processing block of `PokerGame._betting_round` (applied to
`players[current_pos]` after `make_decision` returned `(action, amount)`):
fold marks the player inactive, call moves `current_bet - player.current_bet`
from stack to pot, raise moves `amount - player.current_bet` from stack to
pot and sets a new table bet. `none` models the `IndexError` of
`self.players[current_pos]` on an invalid seat. Any other action string
leaves the state unchanged (no matching `elif`). -/
def applyAction (g : GameState) (idx : Nat) (action : String) (amount : ℚ) :
    Option GameState :=
  match g.players[idx]? with
  | none => none
  | some player =>
    if action = "fold" then
      some { g with
        players := updateAt idx (fun p => { p with isActive := false }) g.players,
        stats := setStat g.stats player.name
          (fun s => { s with foldCount := s.foldCount + 1 }) }
    else if action = "call" then
      let callAmount := g.currentBet - player.currentBet
      some { g with
        players := updateAt idx
          (fun p => { p with stack := p.stack - callAmount,
                             currentBet := g.currentBet }) g.players,
        pot := g.pot + callAmount,
        stats := setStat g.stats player.name
          (fun s => { s with callCount := s.callCount + 1 }) }
    else if action = "raise" then
      let raiseAmount := amount - player.currentBet
      some { g with
        players := updateAt idx
          (fun p => { p with stack := p.stack - raiseAmount,
                             currentBet := amount }) g.players,
        pot := g.pot + raiseAmount,
        currentBet := amount,
        stats := setStat g.stats player.name
          (fun s => { s with raiseCount := s.raiseCount + 1 }) }
    else some g

/-- Small-blind seat of the current hand. -/
def sbPos (g : GameState) : Nat := (g.buttonPos + 1) % g.numPlayers

/-- Big-blind seat of the current hand. -/
def bbPos (g : GameState) : Nat := (g.buttonPos + 2) % g.numPlayers

/-- The small-blind block of `play_hand`: debit the small-blind seat and
credit the pot (`none` models `IndexError` on an invalid seat). -/
def postSmallBlind (g : GameState) : Option GameState :=
  match g.players[sbPos g]? with
  | none => none
  | some _ =>
    some { g with
      players := updateAt (sbPos g)
        (fun p => { p with stack := p.stack - g.smallBlind,
                           currentBet := g.smallBlind }) g.players,
      pot := g.pot + g.smallBlind }

/-- The big-blind block of `play_hand`: debit the big-blind seat, credit
the pot and set the table bet to the big blind. -/
def postBigBlind (g : GameState) : Option GameState :=
  match g.players[bbPos g]? with
  | none => none
  | some _ =>
    some { g with
      players := updateAt (bbPos g)
        (fun p => { p with stack := p.stack - g.bigBlind,
                           currentBet := g.bigBlind }) g.players,
      pot := g.pot + g.bigBlind,
      currentBet := g.bigBlind }

/-- The fixed position-name table of `reset_hand`/`run_simulation`. -/
def positionNames : List String := ["BTN", "SB", "BB", "UTG", "MP", "CO"]

/-- `reset_hand`'s per-seat label: `(i - button_pos) % num_players`
(Python's floor modulus, nonnegative for a positive modulus), indexing
the table when in range and falling back to `MP2`, `MP3`, … beyond it. -/
def positionLabel (numPlayers buttonPos i : Nat) : String :=
  let pos := ((((i : ℤ) - (buttonPos : ℤ)) % (numPlayers : ℤ))).toNat
  if pos < positionNames.length then positionNames.getD pos ""
  else "MP" ++ toString (pos - 4)

/-- `run_simulation`'s own per-seat label assignment, which indexes
`position_names[pos]` without any bounds check: `none` models the
`IndexError` raised when `pos` is 6 or more. -/
def runSimLabel (numPlayers buttonPos i : Nat) : Option String :=
  positionNames.get? ((((i : ℤ) - (buttonPos : ℤ)) % (numPlayers : ℤ)).toNat)

/-- All seat labels as assigned by `reset_hand` (total). -/
def resetHandAssignPositions (numPlayers buttonPos : Nat) : List String :=
  (List.range numPlayers).map (positionLabel numPlayers buttonPos)

/-- All seat labels as assigned inside `run_simulation` (fails when any
seat index exceeds the six named positions). -/
def runSimAssignPositions (numPlayers buttonPos : Nat) :
    Option (List String) :=
  (List.range numPlayers).mapM (runSimLabel numPlayers buttonPos)

/-- The per-player effect of `reset_hand`: set the seat label, clear the
per-hand fields, and replenish a bust stack to the initial stack. -/
def resetPlayerForHand (initialStack : ℚ) (label : String) (p : Player) :
    Player :=
  let p' := { p.resetHand with position := label }
  if p'.stack ≤ 0 then { p' with stack := initialStack } else p'

/-- Map over players with their seat index. -/
def mapWithIndex (f : Nat → Player → Player) : Nat → List Player → List Player
  | _, [] => []
  | i, p :: ps => f i p :: mapWithIndex f (i + 1) ps

/-- `PokerGame.reset_hand()`: fresh unshuffled deck, cleared board, pot
and table bet, advanced button, relabelled seats, per-hand player reset
with bust replenishment. -/
def resetHandState (g : GameState) : GameState :=
  let newButton := (g.buttonPos + 1) % g.numPlayers
  { g with
    deck := Deck.new,
    community := [],
    pot := 0,
    currentBet := 0,
    buttonPos := newButton,
    players := mapWithIndex
      (fun i p => resetPlayerForHand g.initialStack
        (positionLabel g.numPlayers newButton i) p) 0 g.players }

/-- Draw from the game's deck. -/
def gameDraw (g : GameState) : Option Card × GameState :=
  match g.deck.draw with
  | (c, d) => (c, { g with deck := d })

/-- `deal_turn` / `deal_river` / one iteration of `deal_flop`: draw a
card and append it to the board when the deck is not empty. -/
def dealCommunityCard (g : GameState) : GameState :=
  match gameDraw g with
  | (some c, g') => { g' with community := g'.community ++ [c] }
  | (none, g') => g'

/-- `deal_flop`: three community cards, or four in the four-card-flop
variant. -/
def dealFlop (g : GameState) : GameState :=
  let n : Nat := if g.fourCardFlop then 4 else 3
  (List.range n).foldl (fun gg _ => dealCommunityCard gg) g

/-- One hole card to the (active) player at seat `i`. -/
def dealToPlayerAt (g : GameState) (i : Nat) : GameState :=
  match g.players[i]? with
  | none => g
  | some p =>
    if p.isActive then
      match gameDraw g with
      | (some c, g') => { g' with players := updateAt i (Player.receiveCard c) g'.players }
      | (none, g') => g'
    else g

/-- One pass of `deal_hole_cards` over all seats. -/
def dealPass (g : GameState) : GameState :=
  (List.range g.players.length).foldl dealToPlayerAt g

/-- `deal_hole_cards()`: shuffle (to the given order) and deal two cards
round-robin to every active player. -/
def dealHoleCards (order : List Card) (g : GameState) : GameState :=
  let g1 := { g with deck := applyDeckOp g.deck (DeckOp.shuffle order) }
  dealPass (dealPass g1)

/-! ### Showdown resolution (`PokerGame._resolve_winners`) -/

/-- The enumerated active players, in seat order. -/
def activeEntries (g : GameState) : List (Nat × Player) :=
  g.players.enum.filter (fun ip => ip.2.isActive)

/-- Evaluate every active player's hand in order; `none` if any
evaluation raises. -/
def buildHands (community : List Card) :
    List (Nat × Player) → Option (List ((Nat × Player) × HandStrength))
  | [] => some []
  | ip :: rest =>
    match evaluateHand ip.2.holeCards community with
    | none => none
    | some h =>
      match buildHands community rest with
      | none => none
      | some tl => some ((ip, h) :: tl)

/-- The Python sort key `(hand.rank.value, hand.high_cards)`. -/
def hsKey (h : HandStrength) : Nat × List Nat := (h.rank.val, h.highCards)

/-- Python `<` on lists of integers (lexicographic, shorter prefix
first). -/
def natListLtB : List Nat → List Nat → Bool
  | [], [] => false
  | [], _ :: _ => true
  | _ :: _, [] => false
  | a :: as, b :: bs => if a < b then true else if b < a then false else natListLtB as bs

/-- Python `<` on the sort keys (tuple comparison). -/
def keyLtB (k1 k2 : Nat × List Nat) : Bool :=
  if k1.1 < k2.1 then true else if k2.1 < k1.1 then false
  else natListLtB k1.2 k2.2

/-- An entry of the `player_hands` list. -/
abbrev PlayerHand := (Nat × Player) × HandStrength

/-- The descending order used by `player_hands.sort(key=..., reverse=True)`:
`a` sorts no later than `b` when `a`'s key is not smaller. The stable
`insertionSort` with this relation reproduces Python's stable
reverse sort. -/
def phGe (a b : PlayerHand) : Prop := keyLtB (hsKey a.2) (hsKey b.2) = false

instance : DecidableRel phGe := fun a b =>
  inferInstanceAs (Decidable (keyLtB (hsKey a.2) (hsKey b.2) = false))

/-- The best-hand statistics update of `_resolve_winners`. -/
def updateBestHand (s : GameStatistics) (h : HandStrength) : GameStatistics :=
  match s.bestHand with
  | none => { s with bestHand := some h }
  | some b => if b.rank.val < h.rank.val then { s with bestHand := some h } else s

/-- Credit `per` chips to each listed seat (the winners loop). -/
def creditPlayers (per : ℚ) (idxs : List Nat) (players : List Player) :
    List Player :=
  idxs.foldl (fun ps i => updateAt i (fun p => { p with stack := p.stack + per }) ps) players

/-- Update the winners' statistics (hands won, total profit). -/
def creditStats (per : ℚ) (names : List String)
    (stats : List (String × GameStatistics)) : List (String × GameStatistics) :=
  names.foldl (fun st n => setStat st n
    (fun s => { s with handsWon := s.handsWon + 1, totalProfit := s.totalProfit + per })) stats

/-- `PokerGame._resolve_winners()`: no active player gives no winners; a
single active player collects the whole pot; otherwise all hands are
evaluated, sorted descending by `(rank value, high cards)`, the leading
run of key-equal players are the co-winners and each receives
`pot / len(winners)`. Returns the new state and the `(seat, winnings)`
list; `none` models a propagated evaluation exception (the impossible
empty-sort case stands for the `IndexError` of `player_hands[0]`). -/
def resolveWinners (g : GameState) : Option (GameState × List (Nat × ℚ)) :=
  match activeEntries g with
  | [] => some (g, [])
  | [w] =>
    some ({ g with
      players := updateAt w.1 (fun p => { p with stack := p.stack + g.pot }) g.players,
      stats := setStat g.stats w.2.name
        (fun s => { s with handsWon := s.handsWon + 1,
                           totalProfit := s.totalProfit + g.pot }) },
      [(w.1, g.pot)])
  | _ :: _ :: _ =>
    match buildHands g.community (activeEntries g) with
    | none => none
    | some playerHands =>
      let statsAfter := playerHands.foldl
        (fun st ph => setStat st ph.1.2.name (fun s => updateBestHand s ph.2)) g.stats
      match List.insertionSort phGe playerHands with
      | [] => none
      | best :: rest =>
        let winners := (best :: rest).takeWhile (fun ph => hsKey ph.2 = hsKey best.2)
        let per := g.pot / (winners.length : ℚ)
        some ({ g with
          players := creditPlayers per (winners.map (fun ph => ph.1.1)) g.players,
          stats := creditStats per (winners.map (fun ph => ph.1.2.name)) statsAfter },
          winners.map (fun ph => (ph.1.1, per)))

/-- The folded flags recorded in the `_log_hand_results` player
snapshot. -/
def handLogFoldedFlags (g : GameState) : List Bool :=
  g.players.map (fun p => p.folded)

/-- States reachable from a state within one hand by the embedded
player-mutating operations of `play_hand`: blind posting, hole-card and
community dealing, betting actions, and showdown resolution. -/
inductive HandReach : GameState → GameState → Prop
  | refl (g : GameState) : HandReach g g
  | act (g g' g'' : GameState) (i : Nat) (a : String) (amt : ℚ) :
      HandReach g g' → applyAction g' i a amt = some g'' → HandReach g g''
  | sb (g g' g'' : GameState) :
      HandReach g g' → postSmallBlind g' = some g'' → HandReach g g''
  | bb (g g' g'' : GameState) :
      HandReach g g' → postBigBlind g' = some g'' → HandReach g g''
  | hole (g g' : GameState) (order : List Card) :
      HandReach g g' → HandReach g (dealHoleCards order g')
  | flop (g g' : GameState) :
      HandReach g g' → HandReach g (dealFlop g')
  | street (g g' : GameState) :
      HandReach g g' → HandReach g (dealCommunityCard g')
  | resolve (g g' g'' : GameState) (res : List (Nat × ℚ)) :
      HandReach g g' → resolveWinners g' = some (g'', res) → HandReach g g''

/-! ### Deck lemmas and claims C6, C9 -/

theorem fullDeck_length : fullDeck.length = 52 := by decide

theorem fullDeck_nodup : fullDeck.Nodup := by decide

theorem deckInv_new : DeckInv Deck.new := by
  refine ⟨?_, fullDeck_nodup, ?_⟩
  · simp [Deck.new, Deck.remaining, fullDeck_length]
  · intro c _ hc
    simp [Deck.new] at hc

theorem deckInv_draw {d : Deck} (h : DeckInv d) : DeckInv d.draw.2 := by
  obtain ⟨hcard, hnd, hdisj⟩ := h
  have hcard' : d.cards.length + d.discarded.card = 52 := hcard
  unfold Deck.draw
  cases hg : d.cards.getLast? with
  | none => exact ⟨hcard, hnd, hdisj⟩
  | some c =>
    have hne : d.cards ≠ [] := by
      intro he
      rw [he] at hg
      simp at hg
    have hc_eq : d.cards.getLast hne = c := by
      have := List.getLast?_eq_getLast d.cards hne
      rw [this] at hg
      exact Option.some.inj hg
    have hsplit : d.cards.dropLast ++ [c] = d.cards := by
      rw [← hc_eq]
      exact List.dropLast_append_getLast hne
    have hcmem : c ∈ d.cards := by
      rw [← hsplit]
      simp
    have hcnotdisc : c ∉ d.discarded := hdisj c hcmem
    have hndrop : (d.cards.dropLast ++ [c]).Nodup := by
      rw [hsplit]; exact hnd
    have hcnotdrop : c ∉ d.cards.dropLast := by
      intro hmem
      have := (List.nodup_append.mp hndrop).2.2
      exact this hmem (by simp)
    refine ⟨?_, ?_, ?_⟩
    · show d.cards.dropLast.length + (insert c d.discarded).card = 52
      have hlen : d.cards.dropLast.length + 1 = d.cards.length := by
        have := congrArg List.length hsplit
        simpa using this
      rw [Finset.card_insert_of_not_mem hcnotdisc]
      omega
    · exact (List.nodup_append.mp hndrop).1
    · intro x hx
      have hx' : x ∈ d.cards := by
        rw [← hsplit]
        exact List.mem_append_left _ hx
      intro hmem
      rcases Finset.mem_insert.mp hmem with he | hd
      · exact hcnotdrop (he ▸ hx)
      · exact hdisj x hx' hd

theorem deckInv_dealSpecific {d : Deck} (h : DeckInv d) (r : Rank) (s : Suit) :
    DeckInv (d.dealSpecificCard r s).2 := by
  obtain ⟨hcard, hnd, hdisj⟩ := h
  have hcard' : d.cards.length + d.discarded.card = 52 := hcard
  unfold Deck.dealSpecificCard
  by_cases hmem : (⟨r, s⟩ : Card) ∈ d.cards
  · simp only [hmem, if_pos]
    have hcnotdisc : (⟨r, s⟩ : Card) ∉ d.discarded := hdisj _ hmem
    refine ⟨?_, hnd.erase _, ?_⟩
    · show (d.cards.erase ⟨r, s⟩).length + (insert (⟨r, s⟩ : Card) d.discarded).card = 52
      rw [List.length_erase_of_mem hmem, Finset.card_insert_of_not_mem hcnotdisc]
      have : 1 ≤ d.cards.length := List.length_pos.mpr (List.ne_nil_of_mem hmem)
      omega
    · intro x hx
      obtain ⟨hne, hx'⟩ := (hnd.mem_erase_iff).mp hx
      intro hmem'
      rcases Finset.mem_insert.mp hmem' with he | hd
      · exact hne he
      · exact hdisj x hx' hd
  · simp only [hmem, if_neg, not_false_iff]
    exact ⟨hcard, hnd, hdisj⟩

theorem deckInv_applyOp {d : Deck} (h : DeckInv d) (op : DeckOp) :
    DeckInv (applyDeckOp d op) := by
  cases op with
  | shuffle order =>
    unfold applyDeckOp
    by_cases hp : order.Perm d.cards
    · simp only [hp, if_pos]
      obtain ⟨hcard, hnd, hdisj⟩ := h
      refine ⟨?_, hp.nodup_iff.mpr hnd, ?_⟩
      · show order.length + d.discarded.card = 52
        rw [hp.length_eq]
        exact hcard
      · intro c hc
        exact hdisj c (hp.mem_iff.mp hc)
    · simpa [hp] using h
  | draw => exact deckInv_draw h
  | dealSpecific r s => exact deckInv_dealSpecific h r s
  | reset order =>
    unfold applyDeckOp
    by_cases hp : order.Perm fullDeck
    · simp only [hp, if_pos]
      refine ⟨?_, hp.nodup_iff.mpr fullDeck_nodup, ?_⟩
      · show order.length + (∅ : Finset Card).card = 52
        rw [hp.length_eq, fullDeck_length]
        rfl
      · intro c _ hc
        simp at hc
    · simp only [hp, if_neg, not_false_iff]
      refine ⟨?_, fullDeck_nodup, ?_⟩
      · show fullDeck.length + (∅ : Finset Card).card = 52
        rw [fullDeck_length]; rfl
      · intro c _ hc
        simp at hc

/-- C6: after constructing a deck and applying any sequence of shuffle,
draw, deal-specific-card and reset operations, the number of remaining
cards plus the size of the discarded set is 52, no card occurs in both
the remaining sequence and the discarded set, and the remaining sequence
holds no duplicate card. -/
theorem claim_C6 (ops : List DeckOp) : DeckInv (runDeckOps ops) := by
  unfold runDeckOps
  induction ops using List.reverseRecOn with
  | nil => exact deckInv_new
  | append_singleton ops op ih =>
    rw [List.foldl_append]
    exact deckInv_applyOp ih op

/-- C9: requesting a specific card that is not in the remaining sequence
returns the not-found signal and leaves both the remaining sequence and
the discarded set unchanged. -/
theorem claim_C9 (d : Deck) (r : Rank) (s : Suit)
    (h : (⟨r, s⟩ : Card) ∉ d.cards) :
    d.dealSpecificCard r s = (none, d) := by
  unfold Deck.dealSpecificCard
  simp [h]

/-- C9 witness: after dealing the Ace of Spades from a fresh deck, that
card is gone from the remaining sequence and a second request for it
returns not-found with the deck unchanged. -/
theorem claim_C9_witness :
    ((⟨Rank.ace, Suit.spades⟩ : Card) ∉
        ((Deck.new.dealSpecificCard Rank.ace Suit.spades).2).cards) ∧
      ((Deck.new.dealSpecificCard Rank.ace Suit.spades).2).dealSpecificCard
          Rank.ace Suit.spades =
        (none, (Deck.new.dealSpecificCard Rank.ace Suit.spades).2) :=
  ⟨by decide, claim_C9 _ _ _ (by decide)⟩

/-! ### Chip conservation lemmas and claim C3 -/

theorem updateAt_getElem? (f : Player → Player) :
    ∀ (ps : List Player) (i j : Nat),
      (updateAt i f ps)[j]? =
        if j = i then (ps[j]?).map f else ps[j]? := by
  intro ps
  induction ps with
  | nil => intro i j; simp [updateAt]
  | cons p ps ih =>
    intro i j
    cases i with
    | zero =>
      cases j with
      | zero => simp [updateAt]
      | succ j' => simp [updateAt]
    | succ i' =>
      cases j with
      | zero => simp [updateAt]
      | succ j' =>
        simp only [updateAt, List.getElem?_cons_succ]
        rw [ih i' j']
        by_cases hj : j' = i'
        · simp [hj]
        · rw [if_neg hj, if_neg (by omega)]

theorem updateAt_sum_stack (f : Player → Player) :
    ∀ (ps : List Player) (i : Nat),
      ((updateAt i f ps).map (fun p => p.stack)).sum =
        (ps.map (fun p => p.stack)).sum +
          ((ps[i]?.map (fun p => (f p).stack - p.stack)).getD 0) := by
  intro ps
  induction ps with
  | nil => intro i; simp [updateAt]
  | cons p ps ih =>
    intro i
    cases i with
    | zero => simp [updateAt]; ring
    | succ i' =>
      simp only [updateAt, List.map_cons, List.sum_cons, List.getElem?_cons_succ]
      rw [ih i']
      ring

/-- C3: within a hand, each embedded chip-moving step conserves chips and
couples debit with credit. For every fold, call and raise processed by
the betting round and for each posted blind, the sum of all stacks plus
the pot is unchanged, and the pot increase equals the acting player's
simultaneous stack decrease (so the stack is debited exactly when the pot
is credited). -/
theorem claim_C3 :
    (∀ (g : GameState) (idx : Nat) (action : String) (amount : ℚ)
        (g' : GameState), applyAction g idx action amount = some g' →
        chipTotal g' = chipTotal g ∧
          g'.pot - g.pot = stackAt g idx - stackAt g' idx) ∧
    (∀ (g g' : GameState), postSmallBlind g = some g' →
        chipTotal g' = chipTotal g ∧
          g'.pot - g.pot = stackAt g (sbPos g) - stackAt g' (sbPos g)) ∧
    (∀ (g g' : GameState), postBigBlind g = some g' →
        chipTotal g' = chipTotal g ∧
          g'.pot - g.pot = stackAt g (bbPos g) - stackAt g' (bbPos g)) := by
  refine ⟨?_, ?_, ?_⟩
  · intro g idx action amount g' h
    unfold applyAction at h
    cases hp : g.players[idx]? with
    | none => rw [hp] at h; exact absurd h (by simp)
    | some player =>
      rw [hp] at h
      split_ifs at h with h1 h2 h3 <;>
        (injection h with h; subst h) <;>
        constructor <;>
        simp [chipTotal, stackAt, updateAt_sum_stack, updateAt_getElem?, hp] <;>
        ring
  · intro g g' h
    unfold postSmallBlind at h
    cases hp : g.players[sbPos g]? with
    | none => rw [hp] at h; exact absurd h (by simp)
    | some player =>
      rw [hp] at h
      injection h with h; subst h
      constructor <;>
        (simp [chipTotal, stackAt, updateAt_sum_stack, updateAt_getElem?, hp]; try ring)
  · intro g g' h
    unfold postBigBlind at h
    cases hp : g.players[bbPos g]? with
    | none => rw [hp] at h; exact absurd h (by simp)
    | some player =>
      rw [hp] at h
      injection h with h; subst h
      constructor <;>
        (simp [chipTotal, stackAt, updateAt_sum_stack, updateAt_getElem?, hp]; try ring)

/-- A concrete two-player table used by the C3 witness. -/
def playerW3a : Player :=
  ⟨"Player 1", 100, [], 0, true, "BTN", -1, false, 2⟩

/-- Second concrete player of the C3 witness table. -/
def playerW3b : Player :=
  ⟨"Player 2", 100, [], 0, true, "SB", -1, false, 2⟩

/-- A concrete game state used by the C3 witness. -/
def gW3 : GameState :=
  ⟨2, 1000, 5, 10, false, Deck.new, [playerW3a, playerW3b], [], 15, 10, 0, []⟩

/-- The state after the C3 witness call action. -/
def gW3call : GameState := (applyAction gW3 0 "call" 0).getD gW3

/-- The state after the C3 witness small blind. -/
def gW3sb : GameState := (postSmallBlind gW3).getD gW3

/-- C3 witness: on a concrete table, a processed call and a posted small
blind both conserve the stack-plus-pot total and debit the acting seat by
exactly the pot credit. -/
theorem claim_C3_witness :
    (applyAction gW3 0 "call" 0 = some gW3call ∧
      chipTotal gW3call = chipTotal gW3 ∧
      gW3call.pot - gW3.pot = stackAt gW3 0 - stackAt gW3call 0) ∧
    (postSmallBlind gW3 = some gW3sb ∧
      chipTotal gW3sb = chipTotal gW3) :=
  ⟨⟨rfl, (claim_C3.1 gW3 0 "call" 0 gW3call rfl).1,
    (claim_C3.1 gW3 0 "call" 0 gW3call rfl).2⟩,
   ⟨rfl, (claim_C3.2.1 gW3 gW3sb rfl).1⟩⟩

/-! ### Claims C4, C5 (evaluator ordering bugs) and C8 (position labels) -/

/-- A mixed-suit Ace-low wheel, the C4 failing input. -/
def wheelHand : List Card :=
  [⟨.ace, .spades⟩, ⟨.two, .hearts⟩, ⟨.three, .diamonds⟩, ⟨.four, .clubs⟩,
   ⟨.five, .spades⟩]

/-- A mixed-suit Six-high straight compared against the wheel in C4. -/
def sixHighHand : List Card :=
  [⟨.two, .hearts⟩, ⟨.three, .diamonds⟩, ⟨.four, .clubs⟩, ⟨.five, .spades⟩,
   ⟨.six, .spades⟩]

/-- C4 (failing-input evaluation): the Ace-low wheel is classified as a
STRAIGHT, but its tie-break is the ordinal of the Two (the straight check
returns its cards ascending, so `straight[0]` is the lowest card), not of
the Five; the Six-high straight receives the identical tie-break, so the
wheel compares equal to it under the `(rank value, high cards)` order
instead of strictly below it. -/
theorem claim_C4 :
    evaluateCards wheelHand = some ⟨.STRAIGHT, [Rank.two.idx]⟩ ∧
    evaluateCards sixHighHand = some ⟨.STRAIGHT, [Rank.two.idx]⟩ ∧
    Rank.two.idx ≠ Rank.five.idx := by
  refine ⟨by decide, by decide, by decide⟩

/-- A suited Ten-to-Ace royal flush, the C5 failing input. -/
def royalHand : List Card :=
  [⟨.ten, .spades⟩, ⟨.jack, .spades⟩, ⟨.queen, .spades⟩, ⟨.king, .spades⟩,
   ⟨.ace, .spades⟩]

/-- C5 (failing-input evaluation): on a suited Ten-Jack-Queen-King-Ace
the straight-flush detector returns the run ascending, so its first
card is the Ten, the `straight_flush[0].rank == ACE` royal test fails,
and the hand is classified STRAIGHT_FLUSH instead of ROYAL_FLUSH. -/
theorem claim_C5 :
    (checkStraightFlush (sortDesc royalHand)).map
        (fun l => l.map (fun c => c.rank)) =
      some [.ten, .jack, .queen, .king, .ace] ∧
    evaluateCards royalHand = some ⟨.STRAIGHT_FLUSH, [Rank.ten.idx]⟩ ∧
    HandRank.STRAIGHT_FLUSH ≠ HandRank.ROYAL_FLUSH := by
  refine ⟨by decide, by decide, by decide⟩

/-- C8 (failing-input evaluation): `reset_hand`'s labelling covers a
seven-player table (the overflow seat is labelled MP2), but
`run_simulation`'s own unguarded `position_names[pos]` assignment fails
with an out-of-range index on the very first hand of a seven-player
simulation (button at seat 1 after rotation). -/
theorem claim_C8 :
    runSimAssignPositions 7 1 = none ∧
    resetHandAssignPositions 7 1 =
      ["MP2", "BTN", "SB", "BB", "UTG", "MP", "CO"] ∧
    (∀ n : Nat, 2 ≤ n → n ≤ 9 →
      ∀ b : Nat, b < n → (resetHandAssignPositions n b).length = n) := by
  refine ⟨by decide, by decide, ?_⟩
  intro n _ _ b _
  simp [resetHandAssignPositions]

/-- C8 witness: the quantified part of `claim_C8` instantiated at the
seven-player table with the button at seat 1. -/
theorem claim_C8_witness : (resetHandAssignPositions 7 1).length = 7 :=
  claim_C8.2.2 7 (by decide) (by decide) 1 (by decide)

/-! ### Claim C7 (decision policy) -/

theorem preflopStrategy_spec (p : Player) (toCall pot : ℚ) (isLate : Bool)
    (htc : 0 ≤ toCall) (hle : toCall ≤ p.stack) :
    (((preflopStrategy p toCall pot isLate).1 = "fold" ∧
        (preflopStrategy p toCall pot isLate).2 = 0) ∨
      ((preflopStrategy p toCall pot isLate).1 = "call" ∧
        (preflopStrategy p toCall pot isLate).2 = toCall) ∨
      (preflopStrategy p toCall pot isLate).1 = "raise") ∧
    (preflopStrategy p toCall pot isLate).2 ≤ p.stack := by
  unfold preflopStrategy
  cases hpp : hasPocketPair p <;> simp only [hpp] <;>
    split_ifs <;> simp <;>
    first
    | linarith [min_le_right (pot * 0.75) p.stack, min_le_right (pot * 0.5) p.stack]
    | (constructor <;> linarith)

theorem postflopStrategy_spec (p : Player) (hs : HandStrength) (toCall pot : ℚ)
    (isLate : Bool) (htc : 0 ≤ toCall) (hle : toCall ≤ p.stack) :
    (((postflopStrategy p hs toCall pot isLate).1 = "fold" ∧
        (postflopStrategy p hs toCall pot isLate).2 = 0) ∨
      ((postflopStrategy p hs toCall pot isLate).1 = "call" ∧
        (postflopStrategy p hs toCall pot isLate).2 = toCall) ∨
      (postflopStrategy p hs toCall pot isLate).1 = "raise") ∧
    (postflopStrategy p hs toCall pot isLate).2 ≤ p.stack := by
  unfold postflopStrategy
  split_ifs <;> simp <;>
    first
    | linarith [min_le_right pot p.stack, min_le_right (pot * 0.5) p.stack]
    | (constructor <;> linarith)

/-- C7: whenever `make_decision` returns (for any nonnegative amount to
call), a call amount exceeding the stack yields the automatic
`("fold", 0.0)`; otherwise the returned action is a fold of amount 0, a
call of exactly the amount to call, or a raise, and the returned amount
never exceeds the player's stack. -/
theorem claim_C7 (p : Player) (toCall pot : ℚ) (community : List Card)
    (a : String) (amt : ℚ) (htc : 0 ≤ toCall)
    (hres : makeDecision p toCall pot community = some (a, amt)) :
    (p.stack < toCall → a = "fold" ∧ amt = 0) ∧
    (toCall ≤ p.stack →
      ((a = "fold" ∧ amt = 0) ∨ (a = "call" ∧ amt = toCall) ∨ a = "raise") ∧
        amt ≤ p.stack) := by
  unfold makeDecision at hres
  by_cases hgt : toCall > p.stack
  · rw [if_pos hgt] at hres
    simp only [Option.some.injEq, Prod.mk.injEq] at hres
    exact ⟨fun _ => ⟨hres.1.symm, hres.2.symm⟩, fun hle => absurd hgt (by linarith)⟩
  · rw [if_neg hgt] at hres
    have hle : toCall ≤ p.stack := le_of_not_lt hgt
    refine ⟨fun hlt => absurd hlt (by linarith), fun _ => ?_⟩
    cases heval : evaluateHand p.holeCards community with
    | none => rw [heval] at hres; simp at hres
    | some hs =>
      rw [heval] at hres
      by_cases hemp : community.isEmpty
      · simp only [hemp, if_pos] at hres
        have hspec := preflopStrategy_spec p toCall pot
          (decide (4 ≤ positionRank p.position)) htc hle
        injection hres with hres
        rw [hres] at hspec
        simpa using hspec
      · simp only [hemp, if_neg, Bool.false_eq_true, not_false_iff] at hres
        have hspec := postflopStrategy_spec p hs toCall pot
          (decide (4 ≤ positionRank p.position)) htc hle
        injection hres with hres
        rw [hres] at hspec
        simpa using hspec

/-- The concrete player of the C7 witness: button seat, a pocket pair,
stack 100. -/
def playerW7 : Player :=
  ⟨"Player 1", 100, [⟨.ace, .spades⟩, ⟨.ace, .hearts⟩], 0, true, "BTN", -1,
    false, 2⟩

/-- C7 witness: the pre-flop decision of `playerW7` facing a 5-chip call
with a 20-chip pot is a call of exactly 5, within its stack. -/
theorem claim_C7_witness :
    makeDecision playerW7 5 20 [] = some ("call", 5) ∧
    (((("call", (5 : ℚ)).1 = "fold" ∧ (("call", (5 : ℚ)).2 : ℚ) = 0) ∨
        (("call", (5 : ℚ)).1 = "call" ∧ (("call", (5 : ℚ)).2 : ℚ) = 5) ∨
        ("call", (5 : ℚ)).1 = "raise") ∧
      (("call", (5 : ℚ)).2 : ℚ) ≤ playerW7.stack) :=
  ⟨by norm_num [makeDecision, evaluateHand, preflopStrategy, hasPocketPair,
      positionRank, playerW7, Rank.idx],
    (claim_C7 playerW7 5 20 [] "call" 5 (by norm_num)
        (by norm_num [makeDecision, evaluateHand, preflopStrategy,
          hasPocketPair, positionRank, playerW7, Rank.idx])).2
      (by norm_num [playerW7])⟩

/-! ### Claim C10 (the folded flag is never set) -/

/-- All players of a list have a cleared folded flag. -/
def foldedAllFalse (ps : List Player) : Prop := ∀ p ∈ ps, p.folded = false

theorem mem_mapWithIndex {f : Nat → Player → Player} :
    ∀ {l : List Player} {i : Nat} {q : Player},
      q ∈ mapWithIndex f i l → ∃ j p, p ∈ l ∧ q = f j p := by
  intro l
  induction l with
  | nil => intro i q h; simp [mapWithIndex] at h
  | cons p ps ih =>
    intro i q h
    simp only [mapWithIndex, List.mem_cons] at h
    rcases h with h | h
    · exact ⟨i, p, by simp, h⟩
    · obtain ⟨j, p', hp', hq⟩ := ih h
      exact ⟨j, p', by simp [hp'], hq⟩

theorem mem_updateAt {f : Player → Player} :
    ∀ {ps : List Player} {i : Nat} {q : Player},
      q ∈ updateAt i f ps → q ∈ ps ∨ ∃ p ∈ ps, q = f p := by
  intro ps
  induction ps with
  | nil => intro i q h; simp [updateAt] at h
  | cons p ps ih =>
    intro i q h
    cases i with
    | zero =>
      simp only [updateAt, List.mem_cons] at h
      rcases h with h | h
      · exact Or.inr ⟨p, by simp, h⟩
      · exact Or.inl (by simp [h])
    | succ i' =>
      simp only [updateAt, List.mem_cons] at h
      rcases h with h | h
      · exact Or.inl (by simp [h])
      · rcases ih h with h' | ⟨p', hp', hq⟩
        · exact Or.inl (by simp [h'])
        · exact Or.inr ⟨p', by simp [hp'], hq⟩

theorem foldedAllFalse_updateAt (f : Player → Player)
    (hf : ∀ p, (f p).folded = p.folded) {ps : List Player} {i : Nat}
    (h : foldedAllFalse ps) : foldedAllFalse (updateAt i f ps) := by
  intro q hq
  rcases mem_updateAt hq with hmem | ⟨p, hp, hqe⟩
  · exact h q hmem
  · rw [hqe, hf]
    exact h p hp

theorem foldedAllFalse_creditPlayers (per : ℚ) (idxs : List Nat)
    {ps : List Player} (h : foldedAllFalse ps) :
    foldedAllFalse (creditPlayers per idxs ps) := by
  induction idxs generalizing ps with
  | nil => exact h
  | cons i is ih =>
    apply ih
    apply foldedAllFalse_updateAt
    · exact fun p => rfl
    · exact h

theorem foldedAllFalse_dealToPlayerAt {g : GameState} (i : Nat)
    (h : foldedAllFalse g.players) :
    foldedAllFalse (dealToPlayerAt g i).players := by
  unfold dealToPlayerAt gameDraw
  cases hp : g.players[i]? with
  | none => exact h
  | some p =>
    cases hd : g.deck.draw with
    | mk oc d =>
      cases oc with
      | none =>
        by_cases ha : p.isActive <;> simp only [ha] <;> simp <;> exact h
      | some c =>
        by_cases ha : p.isActive <;> simp only [ha] <;> simp
        · apply foldedAllFalse_updateAt
          · exact fun q => rfl
          · exact h
        · exact h

theorem foldedAllFalse_dealPass {g : GameState}
    (h : foldedAllFalse g.players) : foldedAllFalse (dealPass g).players := by
  unfold dealPass
  generalize List.range g.players.length = idxs
  induction idxs generalizing g with
  | nil => exact h
  | cons i is ih => exact ih (foldedAllFalse_dealToPlayerAt i h)

theorem foldedAllFalse_dealCommunityCard {g : GameState}
    (h : foldedAllFalse g.players) :
    foldedAllFalse (dealCommunityCard g).players := by
  unfold dealCommunityCard gameDraw
  cases g.deck.draw with
  | mk oc d => cases oc <;> exact h

theorem foldedAllFalse_dealStreets (l : List Nat) {g : GameState}
    (h : foldedAllFalse g.players) :
    foldedAllFalse (l.foldl (fun gg _ => dealCommunityCard gg) g).players := by
  induction l generalizing g with
  | nil => exact h
  | cons i is ih => exact ih (foldedAllFalse_dealCommunityCard h)

theorem foldedAllFalse_dealFlop {g : GameState}
    (h : foldedAllFalse g.players) : foldedAllFalse (dealFlop g).players :=
  foldedAllFalse_dealStreets _ h

theorem foldedAllFalse_applyAction {g g' : GameState} {i : Nat} {a : String}
    {amt : ℚ} (hres : applyAction g i a amt = some g')
    (h : foldedAllFalse g.players) : foldedAllFalse g'.players := by
  unfold applyAction at hres
  cases hp : g.players[i]? with
  | none => rw [hp] at hres; simp at hres
  | some player =>
    rw [hp] at hres
    split_ifs at hres <;> (injection hres with hres; subst hres) <;>
      first
      | exact h
      | (apply foldedAllFalse_updateAt <;> first | (exact fun q => rfl) | exact h)

theorem foldedAllFalse_postSmallBlind {g g' : GameState}
    (hres : postSmallBlind g = some g') (h : foldedAllFalse g.players) :
    foldedAllFalse g'.players := by
  unfold postSmallBlind at hres
  cases hp : g.players[sbPos g]? with
  | none => rw [hp] at hres; simp at hres
  | some player =>
    rw [hp] at hres
    injection hres with hres; subst hres
    apply foldedAllFalse_updateAt
    · exact fun q => rfl
    · exact h

theorem foldedAllFalse_postBigBlind {g g' : GameState}
    (hres : postBigBlind g = some g') (h : foldedAllFalse g.players) :
    foldedAllFalse g'.players := by
  unfold postBigBlind at hres
  cases hp : g.players[bbPos g]? with
  | none => rw [hp] at hres; simp at hres
  | some player =>
    rw [hp] at hres
    injection hres with hres; subst hres
    apply foldedAllFalse_updateAt
    · exact fun q => rfl
    · exact h

theorem foldedAllFalse_resolveWinners {g g' : GameState}
    {res : List (Nat × ℚ)} (hres : resolveWinners g = some (g', res))
    (h : foldedAllFalse g.players) : foldedAllFalse g'.players := by
  unfold resolveWinners at hres
  cases hae : activeEntries g with
  | nil =>
    rw [hae] at hres
    simp only [Option.some.injEq, Prod.mk.injEq] at hres
    rw [← hres.1]
    exact h
  | cons w ws =>
    cases ws with
    | nil =>
      rw [hae] at hres
      simp only [Option.some.injEq, Prod.mk.injEq] at hres
      rw [← hres.1]
      apply foldedAllFalse_updateAt
      · exact fun q => rfl
      · exact h
    | cons w2 ws2 =>
      rw [hae] at hres
      dsimp only at hres
      cases hb : buildHands g.community (w :: w2 :: ws2) with
      | none => rw [hb] at hres; simp at hres
      | some playerHands =>
        rw [hb] at hres
        dsimp only at hres
        cases hs : List.insertionSort phGe playerHands with
        | nil => rw [hs] at hres; simp at hres
        | cons best rest =>
          rw [hs] at hres
          simp only [Option.some.injEq, Prod.mk.injEq] at hres
          rw [← hres.1]
          exact foldedAllFalse_creditPlayers _ _ h

theorem resetPlayerForHand_folded (s : ℚ) (lbl : String) (p : Player) :
    (resetPlayerForHand s lbl p).folded = false := by
  unfold resetPlayerForHand Player.resetHand
  dsimp only
  split_ifs <;> rfl

theorem foldedAllFalse_resetHandState (g : GameState) :
    foldedAllFalse (resetHandState g).players := by
  intro q hq
  unfold resetHandState at hq
  simp only at hq
  obtain ⟨j, p, _, hqe⟩ := mem_mapWithIndex hq
  rw [hqe]
  exact resetPlayerForHand_folded _ _ _

/-- C10: starting from the per-hand reset, no reachable in-hand state
(through blind posting, dealing, betting actions and showdown
resolution) ever sets a player's folded flag: every player's folded field
stays `false`, and so does every folded flag recorded in the hand-log
snapshot. -/
theorem claim_C10 (g g' : GameState) (h : HandReach (resetHandState g) g') :
    (∀ p ∈ g'.players, p.folded = false) ∧
      ∀ b ∈ handLogFoldedFlags g', b = false := by
  have main : foldedAllFalse g'.players := by
    induction h with
    | refl => exact foldedAllFalse_resetHandState g
    | act g1 g2 i a amt _ hstep ih => exact foldedAllFalse_applyAction hstep ih
    | sb g1 g2 _ hstep ih => exact foldedAllFalse_postSmallBlind hstep ih
    | bb g1 g2 _ hstep ih => exact foldedAllFalse_postBigBlind hstep ih
    | hole g1 order _ ih =>
      unfold dealHoleCards
      exact foldedAllFalse_dealPass (foldedAllFalse_dealPass ih)
    | flop g1 _ ih => exact foldedAllFalse_dealFlop ih
    | street g1 _ ih => exact foldedAllFalse_dealCommunityCard ih
    | resolve g1 g2 res _ hstep ih => exact foldedAllFalse_resolveWinners hstep ih
  refine ⟨main, ?_⟩
  intro b hb
  unfold handLogFoldedFlags at hb
  obtain ⟨p, hp, hbe⟩ := List.mem_map.mp hb
  rw [← hbe]
  exact main p hp

/-- C10 witness: after resetting the concrete two-player table and
dealing a flop, every player's folded flag and every snapshot flag is
`false`. -/
theorem claim_C10_witness :
    (∀ p ∈ (dealFlop (resetHandState gW3)).players, p.folded = false) ∧
      ∀ b ∈ handLogFoldedFlags (dealFlop (resetHandState gW3)), b = false :=
  claim_C10 gW3 (dealFlop (resetHandState gW3))
    (HandReach.flop (resetHandState gW3) (resetHandState gW3)
      (HandReach.refl (resetHandState gW3)))

/-! ### Claim C1 (length-check degradation in the evaluator) -/

theorem countP_or_le {α : Type} (l : List α) (p q : α → Bool) :
    l.countP (fun a => p a || q a) ≤ l.countP p + l.countP q := by
  induction l with
  | nil => simp
  | cons x xs ih =>
    by_cases hp : p x <;> by_cases hq : q x <;>
      simp [List.countP_cons, hp, hq] <;> omega

theorem length_le_one_of_all_eq {l : List Card} (hl : l.Nodup) (a : Card)
    (h : ∀ x ∈ l, x = a) : l.length ≤ 1 := by
  match l, hl, h with
  | [], _, _ => simp
  | [x], _, _ => simp
  | x :: y :: rest, hl, h =>
    exfalso
    have hx : x = a := h x (by simp)
    have hy : y = a := h y (by simp)
    have : x ≠ y := by
      have := List.nodup_cons.mp hl
      exact fun he => this.1 (he ▸ List.mem_cons_self y rest)
    exact this (hx.trans hy.symm)

theorem rank_idx_inj : ∀ a b : Rank, a.idx = b.idx → a = b := by decide

theorem suit_card_four : Fintype.card Suit = 4 := by decide

theorem countRank_le_four {cards : List Card} (hnd : cards.Nodup) (r : Rank) :
    countRank r cards ≤ 4 := by
  unfold countRank
  have hfn : (cards.filter (fun c => c.rank = r)).Nodup := hnd.filter _
  have hmap : ((cards.filter (fun c => c.rank = r)).map (fun c => c.suit)).Nodup := by
    refine List.Nodup.map_on ?_ hfn
    intro x hx y hy hs
    have hxr : x.rank = r := by
      have := List.mem_filter.mp hx
      simpa using this.2
    have hyr : y.rank = r := by
      have := List.mem_filter.mp hy
      simpa using this.2
    cases x; cases y
    simp_all
  have := hmap.length_le_card
  rw [suit_card_four] at this
  simpa using this

theorem length_filter_rank_ne (cards : List Card) (r : Rank) :
    (cards.filter (fun c => ¬ c.rank = r)).length + countRank r cards =
      cards.length := by
  unfold countRank
  have h := @List.length_eq_length_filter_add Card cards
    (fun c => decide (c.rank = r))
  simp only [decide_not] at h ⊢
  omega


theorem mem_map_rank_of_mem_distinctRanksAsc {cards : List Card} {r : Rank}
    (h : r ∈ distinctRanksAsc cards) : r ∈ cards.map (fun c => c.rank) := by
  unfold distinctRanksAsc at h
  have := (List.mem_filter.mp h).2
  obtain ⟨c, hc, hcr⟩ := List.any_eq_true.mp this
  exact List.mem_map.mpr ⟨c, hc, by simpa using hcr⟩

theorem findRun_spec :
    ∀ (rs : List Rank) (w : List Rank), findRun rs = some w →
      w.length = 5 ∧ (∀ x ∈ w, x ∈ rs) ∧ w.Nodup
  | r1 :: r2 :: r3 :: r4 :: r5 :: rest, w, h => by
    unfold findRun at h
    split_ifs at h with hc
    · obtain ⟨e2, e3, e4, e5⟩ := hc
      injection h with h
      subst h
      refine ⟨rfl, ?_, ?_⟩
      · intro x hx
        simp only [List.mem_cons, List.not_mem_nil, or_false] at hx
        rcases hx with h | h | h | h | h <;> subst h <;> simp
      · have hmap : ([r1, r2, r3, r4, r5].map Rank.idx).Nodup := by
          simp only [List.map_cons, List.map_nil, List.nodup_cons, List.mem_cons,
            List.not_mem_nil, or_false, List.nodup_nil, and_true, not_or,
            not_false_eq_true]
          omega
        exact hmap.of_map
    · obtain ⟨hl, hsub, hnd⟩ := findRun_spec (r2 :: r3 :: r4 :: r5 :: rest) w h
      exact ⟨hl, fun x hx => List.mem_cons_of_mem r1 (hsub x hx), hnd⟩
  | [], w, h => by simp [findRun] at h
  | [r1], w, h => by simp [findRun] at h
  | [r1, r2], w, h => by simp [findRun] at h
  | [r1, r2, r3], w, h => by simp [findRun] at h
  | [r1, r2, r3, r4], w, h => by simp [findRun] at h


theorem nodup_sub_length_le (sub l : List Rank) (hnd : sub.Nodup)
    (hsub : ∀ x ∈ sub, x ∈ l) : sub.length ≤ l.length := by
  calc sub.length = sub.toFinset.card := (List.toFinset_card_of_nodup hnd).symm
    _ ≤ l.toFinset.card :=
        Finset.card_le_card
          (fun x hx => List.mem_toFinset.mpr (hsub x (List.mem_toFinset.mp hx)))
    _ ≤ l.length := List.toFinset_card_le l

theorem checkStraight_eq_none_of_short {cards : List Card}
    (h : cards.length < 5) : checkStraight cards = none := by
  unfold checkStraight
  dsimp only
  split_ifs with hw
  · exfalso
    obtain ⟨ha, h2, h3, h4, h5⟩ := hw
    have hn : wheelRanks.Nodup := by decide
    have hsub : ∀ x ∈ wheelRanks, x ∈ cards.map (fun c => c.rank) := by
      intro x hx
      have hx' : x ∈ distinctRanksAsc cards := by
        simp only [wheelRanks, List.mem_cons, List.not_mem_nil, or_false] at hx
        rcases hx with rfl | rfl | rfl | rfl | rfl <;> assumption
      exact mem_map_rank_of_mem_distinctRanksAsc hx'
    have hle := nodup_sub_length_le wheelRanks (cards.map fun c => c.rank) hn hsub
    simp only [wheelRanks, List.length_cons, List.length_nil, List.length_map] at hle
    omega
  · cases hfr : findRun (distinctRanksAsc cards) with
    | none => rfl
    | some w =>
      exfalso
      obtain ⟨hl, hsub, hnd⟩ := findRun_spec _ _ hfr
      have hsub' : ∀ x ∈ w, x ∈ cards.map (fun c => c.rank) :=
        fun x hx => mem_map_rank_of_mem_distinctRanksAsc (hsub x hx)
      have hle := nodup_sub_length_le w (cards.map fun c => c.rank) hnd hsub'
      rw [hl, List.length_map] at hle
      omega


theorem countRank_perm {l1 l2 : List Card} (h : l1.Perm l2) (r : Rank) :
    countRank r l1 = countRank r l2 := by
  unfold countRank
  rw [← List.countP_eq_length_filter, ← List.countP_eq_length_filter]
  exact h.countP_eq _

theorem sortDesc_perm (cards : List Card) : (sortDesc cards).Perm cards :=
  List.perm_insertionSort _ _

theorem sortAsc_length (cards : List Card) :
    (sortAsc cards).length = cards.length :=
  (List.perm_insertionSort _ _).length_eq

theorem suited_le_four {cards : List Card} (hnd : cards.Nodup) {r : Rank}
    (hcount : countRank r cards = 4) (hlen : cards.length ≤ 7) (s : Suit) :
    (cards.filter (fun c => c.suit = s)).length ≤ 4 := by
  have key : ∀ c ∈ cards, (decide (c.suit = s)) = true →
      ((decide (c.suit = s) && decide (c.rank = r)) ||
        decide (¬ c.rank = r)) = true := by
    intro c _ hc
    by_cases hr : c.rank = r <;> simp [hc, hr]
  have hm := List.countP_mono_left key
  have ho := countP_or_le cards
    (fun c => decide (c.suit = s) && decide (c.rank = r))
    (fun c => decide (¬ c.rank = r))
  have h2 : cards.countP (fun c => decide (c.suit = s) && decide (c.rank = r)) ≤ 1 := by
    rw [List.countP_eq_length_filter]
    apply length_le_one_of_all_eq (hnd.filter _) (Card.mk r s)
    intro x hx
    have hx' := (List.mem_filter.mp hx).2
    simp only [Bool.and_eq_true, decide_eq_true_eq] at hx'
    cases x
    simp_all
  have h3 : cards.countP (fun c => decide (¬ c.rank = r)) + 4 = cards.length := by
    rw [List.countP_eq_length_filter]
    have := length_filter_rank_ne cards r
    rw [hcount] at this
    exact this
  have hfl : (cards.filter (fun c => c.suit = s)).length =
      cards.countP (fun c => decide (c.suit = s)) :=
    (List.countP_eq_length_filter _ _).symm
  omega

theorem checkStraightFlush_eq_none_of_quads {cards : List Card}
    (hnd : cards.Nodup) {r : Rank} (hcount : countRank r cards = 4)
    (hlen : cards.length ≤ 7) : checkStraightFlush cards = none := by
  unfold checkStraightFlush
  refine List.findSome?_eq_none_iff.mpr ?_
  intro s _
  apply checkStraight_eq_none_of_short
  rw [sortAsc_length]
  have := suited_le_four hnd hcount hlen s
  omega


theorem mem_firstOccAux {x : Rank} :
    ∀ {l seen : List Rank}, x ∈ l → x ∉ seen → x ∈ firstOccAux seen l := by
  intro l
  induction l with
  | nil => intro seen h _; simp at h
  | cons r rs ih =>
    intro seen hmem hns
    rcases List.mem_cons.mp hmem with rfl | hmem'
    · unfold firstOccAux
      rw [if_neg hns]
      simp
    · unfold firstOccAux
      by_cases hrs : r ∈ seen
      · rw [if_pos hrs]
        exact ih hmem' hns
      · rw [if_neg hrs]
        by_cases hxr : x = r
        · simp [hxr]
        · exact List.mem_cons_of_mem r
            (ih hmem' (by simp [hns, hxr]))

theorem mem_firstOcc {x : Rank} {l : List Rank} (h : x ∈ l) : x ∈ firstOcc l :=
  mem_firstOccAux h (by simp)

theorem countRank_pos_mem {r : Rank} {cards : List Card}
    (h : 0 < countRank r cards) : r ∈ cards.map (fun c => c.rank) := by
  unfold countRank at h
  obtain ⟨c, hc⟩ := List.exists_mem_of_length_pos h
  have := List.mem_filter.mp hc
  exact List.mem_map.mpr ⟨c, this.1, by simpa using this.2⟩

theorem rankCounts_mem_shape {rc : Rank × Nat} {cards : List Card}
    (h : rc ∈ rankCounts cards) : rc.2 = countRank rc.1 cards := by
  unfold rankCounts at h
  obtain ⟨r, _, hrc⟩ := List.mem_map.mp h
  rw [← hrc]

theorem checkFourOfAKind_quads {cards : List Card} {r : Rank}
    (hcount : countRank r cards = 4) (hlen : 5 ≤ cards.length) :
    ∃ l, checkFourOfAKind cards = some (some l) ∧ l.length = 5 ∧ l ≠ [] := by
  unfold checkFourOfAKind
  have hmem : (r, countRank r cards) ∈ rankCounts cards := by
    unfold rankCounts
    exact List.mem_map.mpr
      ⟨r, mem_firstOcc (countRank_pos_mem (by omega)), rfl⟩
  have hsome : ((rankCounts cards).find? (fun rc => rc.2 = 4)).isSome :=
    List.find?_isSome.mpr ⟨_, hmem, by simp [hcount]⟩
  obtain ⟨rc, hrc⟩ := Option.isSome_iff_exists.mp hsome
  have hpred := List.find?_some hrc
  have hshape := rankCounts_mem_shape (List.mem_of_find?_eq_some hrc)
  have hc4 : countRank rc.1 cards = 4 := by
    rw [← hshape]
    simpa using hpred
  have hkick : ∃ c ∈ cards, (decide (¬ c.rank = rc.1)) = true := by
    by_contra hall
    push_neg at hall
    have hfe : countRank rc.1 cards = cards.length := by
      unfold countRank
      rw [List.filter_eq_self.mpr ?_]
      intro a ha
      have := hall a ha
      simpa using this
    omega
  obtain ⟨k, hk⟩ := Option.isSome_iff_exists.mp (List.find?_isSome.mpr hkick)
  rw [hrc]
  dsimp only
  rw [hk]
  refine ⟨cards.filter (fun c => c.rank = rc.1) ++ [k], rfl, ?_, by simp⟩
  have : (cards.filter (fun c => c.rank = rc.1)).length = 4 := hc4
  simp [this]


theorem checkPair_length {cs l : List Card} (h : checkPair cs = some l) :
    ∃ r, 2 ≤ countRank r cs ∧
      l.length = min 2 (countRank r cs) +
        min 3 (cs.length - countRank r cs) := by
  unfold checkPair at h
  cases hf : (rankCounts cs).find? (fun rc => 2 ≤ rc.2) with
  | none => rw [hf] at h; simp at h
  | some rc =>
    rw [hf] at h
    injection h with h
    refine ⟨rc.1, ?_, ?_⟩
    · have hpred := List.find?_some hf
      have hshape := rankCounts_mem_shape (List.mem_of_find?_eq_some hf)
      simp only [decide_eq_true_eq] at hpred
      omega
    · rw [← h]
      have h2 := length_filter_rank_ne cs rc.1
      have e1 : (cs.filter (fun c => c.rank = rc.1)).length =
        countRank rc.1 cs := rfl
      simp only [List.length_append, List.length_take]
      omega

theorem checkThreeOfAKind_length {cs l : List Card}
    (h : checkThreeOfAKind cs = some l) :
    ∃ r, 3 ≤ countRank r cs ∧
      l.length = min 3 (countRank r cs) +
        min 2 (cs.length - countRank r cs) := by
  unfold checkThreeOfAKind at h
  cases hf : (rankCounts cs).find? (fun rc => 3 ≤ rc.2) with
  | none => rw [hf] at h; simp at h
  | some rc =>
    rw [hf] at h
    injection h with h
    refine ⟨rc.1, ?_, ?_⟩
    · have hpred := List.find?_some hf
      have hshape := rankCounts_mem_shape (List.mem_of_find?_eq_some hf)
      simp only [decide_eq_true_eq] at hpred
      omega
    · rw [← h]
      have h2 := length_filter_rank_ne cs rc.1
      have e1 : (cs.filter (fun c => c.rank = rc.1)).length =
        countRank rc.1 cs := rfl
      simp only [List.length_append, List.length_take]
      omega

theorem checkTwoPair_five {cs l : List Card}
    (h : checkTwoPair cs = some (some l)) : l.length = 5 := by
  unfold checkTwoPair at h
  cases hf : (rankCounts cs).filter (fun rc => 2 ≤ rc.2) with
  | nil => rw [hf] at h; simp at h
  | cons rc1 tl =>
    cases tl with
    | nil => rw [hf] at h; simp at h
    | cons rc2 tl2 =>
      rw [hf] at h
      dsimp only at h
      cases hk : cs.find? (fun c => ¬ c.rank = rc1.1 ∧ ¬ c.rank = rc2.1) with
      | none => rw [hk] at h; simp at h
      | some k =>
        rw [hk] at h
        injection h with h
        injection h with h
        have h1 : rc1 ∈ (rankCounts cs).filter (fun rc => 2 ≤ rc.2) := by
          rw [hf]; simp
        have h2 : rc2 ∈ (rankCounts cs).filter (fun rc => 2 ≤ rc.2) := by
          rw [hf]; simp
        have hm1 := List.mem_filter.mp h1
        have hm2 := List.mem_filter.mp h2
        have hs1 := rankCounts_mem_shape hm1.1
        have hs2 := rankCounts_mem_shape hm2.1
        have hc1 : 2 ≤ countRank rc1.1 cs := by
          rw [← hs1]; simpa using hm1.2
        have hc2 : 2 ≤ countRank rc2.1 cs := by
          rw [← hs2]; simpa using hm2.2
        rw [← h]
        have e1 : (cs.filter (fun c => c.rank = rc1.1)).length =
          countRank rc1.1 cs := rfl
        have e2 : (cs.filter (fun c => c.rank = rc2.1)).length =
          countRank rc2.1 cs := rfl
        simp only [List.length_append, List.length_take, List.length_cons,
          List.length_nil]
        omega

theorem checkFourOfAKind_five {cs l : List Card}
    (h : checkFourOfAKind cs = some (some l)) : l.length = 5 := by
  unfold checkFourOfAKind at h
  cases hf : (rankCounts cs).find? (fun rc => rc.2 = 4) with
  | none => rw [hf] at h; simp at h
  | some rc =>
    rw [hf] at h
    dsimp only at h
    cases hk : cs.find? (fun c => ¬ c.rank = rc.1) with
    | none => rw [hk] at h; simp at h
    | some k =>
      rw [hk] at h
      injection h with h
      injection h with h
      have hpred := List.find?_some hf
      have hshape := rankCounts_mem_shape (List.mem_of_find?_eq_some hf)
      simp only [decide_eq_true_eq] at hpred
      have e1 : (cs.filter (fun c => c.rank = rc.1)).length =
        countRank rc.1 cs := rfl
      rw [← h]
      simp only [List.length_append, List.length_cons, List.length_nil]
      omega


theorem evalPairStage_hc {cs : List Card} (hnd : cs.Nodup)
    (hlen6 : 6 ≤ cs.length) : evalPairStage cs = highCardOf cs := by
  unfold evalPairStage
  cases hcp : checkPair cs with
  | none => rfl
  | some l =>
    cases l with
    | nil => rfl
    | cons c rest =>
      obtain ⟨r, hr2, hlen⟩ := checkPair_length hcp
      have hc4 := countRank_le_four hnd r
      dsimp only
      rw [if_neg (by omega)]

theorem evalTwoPairStage_hc {cs : List Card} (hnd : cs.Nodup)
    (hlen6 : 6 ≤ cs.length) :
    ∀ hs, evalTwoPairStage cs = some hs → hs = highCardOf cs := by
  intro hs h
  unfold evalTwoPairStage at h
  cases htp : checkTwoPair cs with
  | none => rw [htp] at h; simp at h
  | some o =>
    cases o with
    | none =>
      rw [htp] at h
      injection h with h
      rw [← h, evalPairStage_hc hnd hlen6]
    | some l =>
      cases l with
      | nil =>
        rw [htp] at h
        injection h with h
        rw [← h, evalPairStage_hc hnd hlen6]
      | cons c rest =>
        rw [htp] at h
        injection h with h
        have h5 := checkTwoPair_five htp
        rw [if_neg (by omega)] at h
        exact h.symm

theorem evalThreeKindStage_hc {cs : List Card} (hnd : cs.Nodup)
    (hlen6 : 6 ≤ cs.length) :
    ∀ hs, evalThreeKindStage cs = some hs → hs = highCardOf cs := by
  intro hs h
  unfold evalThreeKindStage at h
  cases htk : checkThreeOfAKind cs with
  | none =>
    rw [htk] at h
    exact evalTwoPairStage_hc hnd hlen6 hs h
  | some l =>
    cases l with
    | nil =>
      rw [htk] at h
      exact evalTwoPairStage_hc hnd hlen6 hs h
    | cons c rest =>
      rw [htk] at h
      injection h with h
      obtain ⟨r, hr3, hlen⟩ := checkThreeOfAKind_length htk
      have hc4 := countRank_le_four hnd r
      rw [if_neg (by omega)] at h
      exact h.symm

theorem evalStraightStage_ok {cs : List Card} (hnd : cs.Nodup)
    (hlen6 : 6 ≤ cs.length) :
    ∀ hs, evalStraightStage cs = some hs →
      hs = highCardOf cs ∨ hs.rank = .STRAIGHT := by
  intro hs h
  unfold evalStraightStage at h
  cases hst : checkStraight cs with
  | none =>
    rw [hst] at h
    exact Or.inl (evalThreeKindStage_hc hnd hlen6 hs h)
  | some l =>
    cases l with
    | nil =>
      rw [hst] at h
      exact Or.inl (evalThreeKindStage_hc hnd hlen6 hs h)
    | cons c rest =>
      rw [hst] at h
      injection h with h
      split_ifs at h
      · right; rw [← h]
      · left; exact h.symm

theorem evalFlushStage_ok {cs : List Card} (hnd : cs.Nodup)
    (hlen6 : 6 ≤ cs.length) :
    ∀ hs, evalFlushStage cs = some hs →
      hs = highCardOf cs ∨ hs.rank = .STRAIGHT ∨ hs.rank = .FLUSH := by
  intro hs h
  unfold evalFlushStage at h
  cases hfl : checkFlush cs with
  | none =>
    rw [hfl] at h
    rcases evalStraightStage_ok hnd hlen6 hs h with h' | h'
    · exact Or.inl h'
    · exact Or.inr (Or.inl h')
  | some l =>
    cases l with
    | nil =>
      rw [hfl] at h
      rcases evalStraightStage_ok hnd hlen6 hs h with h' | h'
      · exact Or.inl h'
      · exact Or.inr (Or.inl h')
    | cons c rest =>
      rw [hfl] at h
      injection h with h
      split_ifs at h
      · right; right; rw [← h]
      · left; exact h.symm

theorem evalFullHouseStage_ok {cs : List Card} (hnd : cs.Nodup)
    (hlen6 : 6 ≤ cs.length) :
    ∀ hs, evalFullHouseStage cs = some hs →
      hs = highCardOf cs ∨ hs.rank = .STRAIGHT ∨ hs.rank = .FLUSH ∨
        hs.rank = .FULL_HOUSE := by
  intro hs h
  unfold evalFullHouseStage at h
  cases hfh : checkFullHouse cs with
  | none =>
    rw [hfh] at h
    rcases evalFlushStage_ok hnd hlen6 hs h with h' | h' | h'
    · exact Or.inl h'
    · exact Or.inr (Or.inl h')
    · exact Or.inr (Or.inr (Or.inl h'))
  | some l =>
    cases l with
    | nil =>
      rw [hfh] at h
      rcases evalFlushStage_ok hnd hlen6 hs h with h' | h' | h'
      · exact Or.inl h'
      · exact Or.inr (Or.inl h')
      · exact Or.inr (Or.inr (Or.inl h'))
    | cons c rest =>
      rw [hfh] at h
      injection h with h
      split_ifs at h
      · right; right; right; rw [← h]
      · left; exact h.symm

theorem evalFourKindStage_ok {cs : List Card} (hnd : cs.Nodup)
    (hlen6 : 6 ≤ cs.length) :
    ∀ hs, evalFourKindStage cs = some hs →
      hs = highCardOf cs ∨ hs.rank = .STRAIGHT ∨ hs.rank = .FLUSH ∨
        hs.rank = .FULL_HOUSE := by
  intro hs h
  unfold evalFourKindStage at h
  cases hfk : checkFourOfAKind cs with
  | none => rw [hfk] at h; simp at h
  | some o =>
    cases o with
    | none =>
      rw [hfk] at h
      exact evalFullHouseStage_ok hnd hlen6 hs h
    | some l =>
      cases l with
      | nil =>
        rw [hfk] at h
        exact evalFullHouseStage_ok hnd hlen6 hs h
      | cons c rest =>
        rw [hfk] at h
        have h5 := checkFourOfAKind_five hfk
        dsimp only at h
        rw [if_neg (by omega)] at h
        injection h with h
        left; exact h.symm

/-- C1: on any 6- or 7-card set of distinct cards, the evaluator can
never produce FOUR_OF_A_KIND, THREE_OF_A_KIND, TWO_PAIR or PAIR — each of
those detectors returns its scoring cards plus kickers, which is longer
than the length the caller accepts (4, 3, 4 and 2 respectively), so those
categories silently degrade to HIGH_CARD; in particular every such set
holding four cards of one rank evaluates to the plain high-card result. -/
theorem claim_C1 (cards : List Card) (hnd : cards.Nodup)
    (hlen : cards.length = 6 ∨ cards.length = 7) :
    (∀ r : Rank, countRank r cards = 4 →
      evaluateCards cards = some (highCardOf (sortDesc cards))) ∧
    (∀ hs : HandStrength, evaluateCards cards = some hs →
      hs.rank ≠ .FOUR_OF_A_KIND ∧ hs.rank ≠ .THREE_OF_A_KIND ∧
        hs.rank ≠ .TWO_PAIR ∧ hs.rank ≠ .PAIR) := by
  have hperm := sortDesc_perm cards
  have hndS : (sortDesc cards).Nodup := hperm.nodup_iff.mpr hnd
  have hlenS : (sortDesc cards).length = cards.length := hperm.length_eq
  have hlen6 : 6 ≤ (sortDesc cards).length := by omega
  constructor
  · intro r hcount
    have hcountS : countRank r (sortDesc cards) = 4 := by
      rw [countRank_perm hperm]; exact hcount
    have hsf : checkStraightFlush (sortDesc cards) = none :=
      checkStraightFlush_eq_none_of_quads hndS hcountS (by omega)
    obtain ⟨l, hfk, hl5, hlne⟩ := checkFourOfAKind_quads hcountS (by omega)
    unfold evaluateCards
    dsimp only
    rw [hsf]
    dsimp only
    unfold evalFourKindStage
    rw [hfk]
    cases l with
    | nil => exact absurd rfl hlne
    | cons c rest =>
      dsimp only
      rw [if_neg (by omega)]
  · intro hs h
    unfold evaluateCards at h
    dsimp only at h
    cases hsf : checkStraightFlush (sortDesc cards) with
    | none =>
      rw [hsf] at h
      dsimp only at h
      rcases evalFourKindStage_ok hndS hlen6 hs h with h' | h' | h' | h' <;>
        (rw [h']; simp [highCardOf])
    | some l =>
      rw [hsf] at h
      cases l with
      | nil =>
        dsimp only at h
        rcases evalFourKindStage_ok hndS hlen6 hs h with h' | h' | h' | h' <;>
          (rw [h']; simp [highCardOf])
      | cons c rest =>
        injection h with h
        split_ifs at h <;> (rw [← h]; simp [highCardOf])


/-- A seven-card set with four Aces, used by the C1 witness. -/
def quadHand : List Card :=
  [⟨.ace, .spades⟩, ⟨.ace, .hearts⟩, ⟨.ace, .diamonds⟩, ⟨.ace, .clubs⟩,
   ⟨.king, .spades⟩, ⟨.queen, .spades⟩, ⟨.jack, .spades⟩]

/-- C1 witness: the seven distinct cards A♠ A♥ A♦ A♣ K♠ Q♠ J♠ hold four
of a kind yet evaluate to the plain high-card result. -/
theorem claim_C1_witness :
    quadHand.Nodup ∧ (quadHand.length = 6 ∨ quadHand.length = 7) ∧
      countRank Rank.ace quadHand = 4 ∧
      evaluateCards quadHand = some (highCardOf (sortDesc quadHand)) :=
  ⟨by decide, by decide, by decide,
    (claim_C1 quadHand (by decide) (by decide)).1 Rank.ace (by decide)⟩


/-! ### Claim C2 (showdown winner selection and pot split) -/

theorem natListLtB_irrefl : ∀ l : List Nat, natListLtB l l = false := by
  intro l
  induction l with
  | nil => rfl
  | cons a as ih => simp [natListLtB, ih]

theorem natListLtB_conn :
    ∀ {a b : List Nat}, natListLtB a b = false → natListLtB b a = false →
      a = b := by
  intro a
  induction a with
  | nil =>
    intro b h1 _
    cases b with
    | nil => rfl
    | cons y ys => simp [natListLtB] at h1
  | cons x xs ih =>
    intro b h1 h2
    cases b with
    | nil => simp [natListLtB] at h2
    | cons y ys =>
      unfold natListLtB at h1 h2
      by_cases hxy : x < y
      · rw [if_pos hxy] at h1
        exact absurd h1 (by simp)
      · rw [if_neg hxy] at h1
        by_cases hyx : y < x
        · rw [if_pos hyx] at h2
          exact absurd h2 (by simp)
        · rw [if_neg hyx] at h1
          rw [if_neg hyx, if_neg hxy] at h2
          have hxe : x = y := by omega
          rw [hxe, ih h1 h2]

theorem natListLtB_trans :
    ∀ {a b c : List Nat}, natListLtB a b = true → natListLtB b c = true →
      natListLtB a c = true := by
  intro a
  induction a with
  | nil =>
    intro b c h1 h2
    cases b with
    | nil => simp [natListLtB] at h1
    | cons y ys =>
      cases c with
      | nil => simp [natListLtB] at h2
      | cons z zs => rfl
  | cons x xs ih =>
    intro b c h1 h2
    cases b with
    | nil => simp [natListLtB] at h1
    | cons y ys =>
      cases c with
      | nil => simp [natListLtB] at h2
      | cons z zs =>
        unfold natListLtB at h1 h2 ⊢
        by_cases hxy : x < y <;> by_cases hyz : y < z <;>
          by_cases hyx : y < x <;> by_cases hzy : z < y <;>
          simp_all <;>
          first
          | omega
          | (left; omega)
          | (right; exact ⟨by omega, ih h1 h2⟩)


theorem keyLtB_irrefl (k : Nat × List Nat) : keyLtB k k = false := by
  simp [keyLtB, natListLtB_irrefl]

theorem keyLtB_conn {k1 k2 : Nat × List Nat} (h1 : keyLtB k1 k2 = false)
    (h2 : keyLtB k2 k1 = false) : k1 = k2 := by
  unfold keyLtB at h1 h2
  by_cases ha : k1.1 < k2.1
  · rw [if_pos ha] at h1; exact absurd h1 (by simp)
  · rw [if_neg ha] at h1
    by_cases hb : k2.1 < k1.1
    · rw [if_pos hb] at h2; exact absurd h2 (by simp)
    · rw [if_neg hb] at h1
      rw [if_neg hb, if_neg ha] at h2
      have hfst : k1.1 = k2.1 := by omega
      have hsnd := natListLtB_conn h1 h2
      exact Prod.ext hfst hsnd

theorem keyLtB_trans {k1 k2 k3 : Nat × List Nat} (h1 : keyLtB k1 k2 = true)
    (h2 : keyLtB k2 k3 = true) : keyLtB k1 k3 = true := by
  unfold keyLtB at h1 h2 ⊢
  by_cases h12 : k1.1 < k2.1 <;> by_cases h23 : k2.1 < k3.1 <;>
    by_cases h21 : k2.1 < k1.1 <;> by_cases h32 : k3.1 < k2.1 <;>
    simp_all <;>
    first
    | omega
    | (left; omega)
    | (right; exact ⟨by omega, natListLtB_trans h1 h2⟩)

theorem keyLtB_total3 (k1 k2 : Nat × List Nat) :
    keyLtB k1 k2 = true ∨ k1 = k2 ∨ keyLtB k2 k1 = true := by
  by_cases h1 : keyLtB k1 k2 = true
  · exact Or.inl h1
  · by_cases h2 : keyLtB k2 k1 = true
    · exact Or.inr (Or.inr h2)
    · exact Or.inr (Or.inl (keyLtB_conn (Bool.eq_false_iff.mpr h1)
        (Bool.eq_false_iff.mpr h2)))

theorem phGe_refl (a : PlayerHand) : phGe a a := keyLtB_irrefl _

theorem phGe_total (a b : PlayerHand) : phGe a b ∨ phGe b a := by
  unfold phGe
  rcases keyLtB_total3 (hsKey a.2) (hsKey b.2) with h | h | h
  · right
    cases hba : keyLtB (hsKey b.2) (hsKey a.2) with
    | false => rfl
    | true =>
      exfalso
      have := keyLtB_trans h hba
      rw [keyLtB_irrefl] at this
      exact Bool.false_ne_true this
  · right
    rw [h, keyLtB_irrefl]
  · left
    cases hab : keyLtB (hsKey a.2) (hsKey b.2) with
    | false => rfl
    | true =>
      exfalso
      have := keyLtB_trans hab h
      rw [keyLtB_irrefl] at this
      exact Bool.false_ne_true this

theorem phGe_trans (a b c : PlayerHand) (h1 : phGe a b) (h2 : phGe b c) :
    phGe a c := by
  unfold phGe at h1 h2 ⊢
  cases hac : keyLtB (hsKey a.2) (hsKey c.2) with
  | false => rfl
  | true =>
    exfalso
    rcases keyLtB_total3 (hsKey a.2) (hsKey b.2) with hab | heq | hba
    · rw [hab] at h1
      exact absurd h1 (by simp)
    · rw [← heq] at h2
      rw [hac] at h2
      exact absurd h2 (by simp)
    · have := keyLtB_trans hba hac
      rw [this] at h2
      exact absurd h2 (by simp)


theorem keyLtB_lt_of_le_ne {k1 k2 : Nat × List Nat}
    (hle : keyLtB k2 k1 = false) (hne : k1 ≠ k2) : keyLtB k1 k2 = true := by
  rcases keyLtB_total3 k1 k2 with h | h | h
  · exact h
  · exact absurd h hne
  · rw [h] at hle
    exact absurd hle (by simp)

theorem takeWhile_eq_filter_max (b : PlayerHand) :
    ∀ (l : List PlayerHand), l.Pairwise phGe →
      (∀ x ∈ l, keyLtB (hsKey b.2) (hsKey x.2) = false) →
      l.takeWhile (fun x => hsKey x.2 = hsKey b.2) =
        l.filter (fun x => hsKey x.2 = hsKey b.2) := by
  intro l
  induction l with
  | nil => intro _ _; rfl
  | cons x xs ih =>
    intro hp hb
    have hp' := List.pairwise_cons.mp hp
    by_cases hx : hsKey x.2 = hsKey b.2
    · rw [List.takeWhile_cons, List.filter_cons,
        if_pos (by simp [hx]), if_pos (by simp [hx]),
        ih hp'.2 (fun y hy => hb y (List.mem_cons_of_mem x hy))]
    · rw [List.takeWhile_cons, List.filter_cons,
        if_neg (by simp [hx]), if_neg (by simp [hx])]
      have hlt : keyLtB (hsKey x.2) (hsKey b.2) = true :=
        keyLtB_lt_of_le_ne (hb x (by simp)) hx
      have hnil : xs.filter (fun y => decide (hsKey y.2 = hsKey b.2)) = [] := by
        rw [List.filter_eq_nil_iff]
        intro y hy
        simp only [decide_eq_true_eq]
        intro hyb
        have hxy : phGe x y := hp'.1 y hy
        unfold phGe at hxy
        rw [hyb] at hxy
        rw [hxy] at hlt
        exact absurd hlt (by simp)
      rw [hnil]

theorem buildHands_spec {community : List Card} :
    ∀ {actives : List (Nat × Player)}
      {phs : List ((Nat × Player) × HandStrength)},
      buildHands community actives = some phs →
      phs.map (fun ph => ph.1) = actives ∧
        ∀ ph ∈ phs, evaluateHand ph.1.2.holeCards community = some ph.2 := by
  intro actives
  induction actives with
  | nil =>
    intro phs h
    unfold buildHands at h
    injection h with h
    rw [← h]
    exact ⟨rfl, by simp⟩
  | cons ip rest ih =>
    intro phs h
    unfold buildHands at h
    cases he : evaluateHand ip.2.holeCards community with
    | none => rw [he] at h; simp at h
    | some hstr =>
      rw [he] at h
      dsimp only at h
      cases hb : buildHands community rest with
      | none => rw [hb] at h; simp at h
      | some tl =>
        rw [hb] at h
        injection h with h
        obtain ⟨hmap, hall⟩ := ih hb
        rw [← h]
        refine ⟨by simp [hmap], ?_⟩
        intro ph hph
        rcases List.mem_cons.mp hph with rfl | hph'
        · exact he
        · exact hall ph hph'

theorem creditPlayers_getElem? (per : ℚ) :
    ∀ (idxs : List Nat) (ps : List Player), idxs.Nodup → ∀ (j : Nat),
      (creditPlayers per idxs ps)[j]? =
        if j ∈ idxs then
          (ps[j]?).map (fun p => { p with stack := p.stack + per })
        else ps[j]? := by
  intro idxs
  induction idxs with
  | nil => intro ps _ j; simp [creditPlayers]
  | cons i is ih =>
    intro ps hnd j
    have hstep : creditPlayers per (i :: is) ps =
        creditPlayers per is
          (updateAt i (fun p => { p with stack := p.stack + per }) ps) := rfl
    rw [hstep, ih _ (List.nodup_cons.mp hnd).2 j]
    by_cases hj : j ∈ is
    · rw [if_pos hj, if_pos (by simp [hj])]
      rw [updateAt_getElem?]
      have hji : ¬ j = i := by
        intro he
        exact (List.nodup_cons.mp hnd).1 (he ▸ hj)
      rw [if_neg hji]
    · rw [if_neg hj, updateAt_getElem?]
      by_cases hji : j = i
      · rw [if_pos hji, if_pos (by simp [hji])]
      · rw [if_neg hji, if_neg (by simp [hji, hj])]

theorem activeEntries_fst_nodup (g : GameState) :
    ((activeEntries g).map (fun ip => ip.1)).Nodup := by
  unfold activeEntries
  have hsub : ((g.players.enum.filter (fun ip => ip.2.isActive)).map
      (fun ip : Nat × Player => ip.1)).Sublist
      (g.players.enum.map (fun ip : Nat × Player => ip.1)) :=
    (List.filter_sublist _).map _
  have : (g.players.enum.map (fun ip : Nat × Player => ip.1)).Nodup := by
    have := List.enum_map_fst g.players
    simp only [Prod.fst] at this ⊢
    rw [this]
    exact List.nodup_range _
  exact this.sublist hsub

theorem activeEntries_getElem? {g : GameState} {ip : Nat × Player}
    (h : ip ∈ activeEntries g) : g.players[ip.1]? = some ip.2 := by
  unfold activeEntries at h
  have := (List.mem_filter.mp h).1
  exact List.mem_enum_iff_getElem?.mp this


theorem map_snd_pairs (W : List PlayerHand) (q : ℚ) :
    ((W.map (fun ph => (ph.1.1, q))).map (fun r => r.2)) =
      List.replicate W.length q := by
  rw [List.map_map]
  have hc : ((fun r : Nat × ℚ => r.2) ∘
      (fun ph : PlayerHand => (ph.1.1, q))) = fun x : PlayerHand => q := rfl
  rw [hc, List.map_const']

/-- C2: at a showdown with at least two active players whose evaluations
all succeed, the co-winners are exactly the active players whose
`(rank value, high cards)` key equals the maximum over all active
players; each co-winner's stack is credited the pot divided by the
number of co-winners, the others' stacks are untouched, and the credited
amounts sum exactly to the pot. -/
theorem claim_C2 (g g' : GameState) (res : List (Nat × ℚ))
    (playerHands : List ((Nat × Player) × HandStrength))
    (hbuild : buildHands g.community (activeEntries g) = some playerHands)
    (h2 : 2 ≤ (activeEntries g).length)
    (hres : resolveWinners g = some (g', res)) :
    ∃ bestKey : Nat × List Nat,
      (∃ ph ∈ playerHands, hsKey ph.2 = bestKey) ∧
      (∀ ph ∈ playerHands, keyLtB bestKey (hsKey ph.2) = false) ∧
      res.Perm ((playerHands.filter (fun ph => hsKey ph.2 = bestKey)).map
        (fun ph => (ph.1.1, g.pot / (res.length : ℚ)))) ∧
      (∀ r ∈ res, r.2 = g.pot / (res.length : ℚ)) ∧
      (res.map (fun r => r.2)).sum = g.pot ∧
      (∀ i ∈ res.map (fun r => r.1),
        stackAt g' i = stackAt g i + g.pot / (res.length : ℚ)) ∧
      (∀ i, i ∉ res.map (fun r => r.1) → stackAt g' i = stackAt g i) := by
  have hnodupA := activeEntries_fst_nodup g
  unfold resolveWinners at hres
  cases hae : activeEntries g with
  | nil => rw [hae] at h2; simp at h2
  | cons a1 tl =>
  cases tl with
  | nil => rw [hae] at h2; simp at h2
  | cons a2 tl2 =>
  rw [hae] at hres hbuild hnodupA
  dsimp only at hres
  rw [hbuild] at hres
  dsimp only at hres
  have hperm0 : (List.insertionSort phGe playerHands).Perm playerHands :=
    List.perm_insertionSort _ _
  obtain ⟨hmap, _⟩ := buildHands_spec hbuild
  have hlenph : playerHands.length = (a1 :: a2 :: tl2).length := by
    rw [← hmap, List.length_map]
  cases hs : List.insertionSort phGe playerHands with
  | nil =>
    exfalso
    have hl := hperm0.length_eq
    rw [hs] at hl
    simp only [List.length_nil] at hl
    rw [← hl] at hlenph
    simp at hlenph
  | cons best rest =>
  rw [hs] at hres
  dsimp only at hres
  simp only [Option.some.injEq, Prod.mk.injEq] at hres
  obtain ⟨hg', hres2⟩ := hres
  have hperm' : (best :: rest).Perm playerHands := hs ▸ hperm0
  have hsorted : (best :: rest).Pairwise phGe := by
    have hy := @List.sorted_insertionSort PlayerHand phGe _ ⟨phGe_total⟩
      ⟨phGe_trans⟩ playerHands
    rw [hs] at hy
    exact hy
  have hballs : ∀ x ∈ best :: rest,
      keyLtB (hsKey best.2) (hsKey x.2) = false := by
    intro x hx
    rcases List.mem_cons.mp hx with rfl | hx'
    · exact keyLtB_irrefl _
    · exact (List.pairwise_cons.mp hsorted).1 x hx'
  set W := (best :: rest).takeWhile (fun ph => hsKey ph.2 = hsKey best.2)
    with hWdef
  have hwf : W = (best :: rest).filter (fun ph => hsKey ph.2 = hsKey best.2) :=
    takeWhile_eq_filter_max best (best :: rest) hsorted hballs
  have hwcons : W = best ::
      rest.takeWhile (fun ph => hsKey ph.2 = hsKey best.2) := by
    rw [hWdef, List.takeWhile_cons, if_pos (by simp)]
  have hlen_res : res.length = W.length := by
    rw [← hres2, List.length_map]
  have hpos : 0 < W.length := by
    rw [hwcons]
    simp
  have hplayers : g'.players =
      creditPlayers (g.pot / (W.length : ℚ))
        (W.map (fun ph => ph.1.1)) g.players := by
    rw [← hg']
  have hresIdx : res.map (fun r => r.1) = W.map (fun ph => ph.1.1) := by
    rw [← hres2, List.map_map]
    rfl
  have hph_nodup : (playerHands.map (fun ph => ph.1.1)).Nodup := by
    have h1 : ((playerHands.map (fun ph => ph.1)).map
        (fun ip : Nat × Player => ip.1)).Nodup := by
      rw [hmap]
      exact hnodupA
    rw [List.map_map] at h1
    exact h1
  have hwnodup : (W.map (fun ph => ph.1.1)).Nodup := by
    have hsortm : ((best :: rest).map (fun ph => ph.1.1)).Nodup :=
      (hperm'.map _).nodup_iff.mpr hph_nodup
    exact hsortm.sublist ((List.takeWhile_sublist _).map _)
  refine ⟨hsKey best.2, ?_, ?_, ?_, ?_, ?_, ?_, ?_⟩
  · exact ⟨best, hperm'.mem_iff.mp (by simp), rfl⟩
  · intro ph hph
    exact hballs ph (hperm'.mem_iff.mpr hph)
  · rw [hlen_res, ← hres2, hwf]
    exact ((hperm'.filter _).map _)
  · intro r hr
    rw [hlen_res]
    rw [← hres2] at hr
    obtain ⟨ph, _, hphr⟩ := List.mem_map.mp hr
    rw [← hphr]
  · rw [← hres2, map_snd_pairs, List.sum_replicate, nsmul_eq_mul]
    exact mul_div_cancel₀ g.pot
      (Nat.cast_ne_zero.mpr (by omega))
  · intro i hi
    rw [hresIdx] at hi
    obtain ⟨ph, hphW, hidx⟩ := List.mem_map.mp hi
    have hphS : ph ∈ best :: rest := (List.takeWhile_sublist _).subset hphW
    have hphP : ph ∈ playerHands := hperm'.mem_iff.mp hphS
    have hphA : ph.1 ∈ activeEntries g := by
      rw [hae, ← hmap]
      exact List.mem_map.mpr ⟨ph, hphP, rfl⟩
    have hget := activeEntries_getElem? hphA
    subst hidx
    rw [hlen_res]
    unfold stackAt
    rw [hplayers, creditPlayers_getElem? _ _ _ hwnodup, if_pos hi, hget]
    simp
  · intro i hi
    rw [hresIdx] at hi
    unfold stackAt
    rw [hplayers, creditPlayers_getElem? _ _ _ hwnodup, if_neg hi]


/-- First player of the concrete C2 showdown (pocket aces). -/
def playerW2a : Player :=
  ⟨"Player 1", 100, [⟨.ace, .spades⟩, ⟨.ace, .hearts⟩], 0, true, "BTN", -1,
    false, 2⟩

/-- Second player of the concrete C2 showdown (pocket kings). -/
def playerW2b : Player :=
  ⟨"Player 2", 100, [⟨.king, .spades⟩, ⟨.king, .hearts⟩], 0, true, "SB", -1,
    false, 2⟩

/-- The concrete C2 showdown state: two active players, a full board, a
100-chip pot. -/
def gW2 : GameState :=
  ⟨2, 1000, 5, 10, false, Deck.new, [playerW2a, playerW2b],
   [⟨.two, .clubs⟩, ⟨.seven, .diamonds⟩, ⟨.nine, .hearts⟩,
    ⟨.jack, .spades⟩, ⟨.three, .diamonds⟩], 100, 0, 0, []⟩

/-- The evaluated hands of the C2 showdown. -/
def buildW2 : List ((Nat × Player) × HandStrength) :=
  (buildHands gW2.community (activeEntries gW2)).getD []

/-- The resolved C2 showdown: new state and winner list. -/
def resolveW2 : GameState × List (Nat × ℚ) :=
  (resolveWinners gW2).getD (gW2, [])

/-- C2 witness: resolving the concrete two-player showdown picks exactly
the key-maximal players as winners, pays each the pot over the number of
winners, and the payments sum to the pot. -/
theorem claim_C2_witness :
    (2 ≤ (activeEntries gW2).length) ∧
    ∃ bestKey : Nat × List Nat,
      (∃ ph ∈ buildW2, hsKey ph.2 = bestKey) ∧
      (∀ ph ∈ buildW2, keyLtB bestKey (hsKey ph.2) = false) ∧
      (resolveW2.2).Perm
        ((buildW2.filter (fun ph => hsKey ph.2 = bestKey)).map
          (fun ph => (ph.1.1, gW2.pot / ((resolveW2.2).length : ℚ)))) ∧
      (∀ r ∈ resolveW2.2, r.2 = gW2.pot / ((resolveW2.2).length : ℚ)) ∧
      ((resolveW2.2).map (fun r => r.2)).sum = gW2.pot ∧
      (∀ i ∈ (resolveW2.2).map (fun r => r.1),
        stackAt resolveW2.1 i =
          stackAt gW2 i + gW2.pot / ((resolveW2.2).length : ℚ)) ∧
      (∀ i, i ∉ (resolveW2.2).map (fun r => r.1) →
        stackAt resolveW2.1 i = stackAt gW2 i) :=
  ⟨by decide, claim_C2 gW2 resolveW2.1 resolveW2.2 buildW2 rfl (by decide) rfl⟩


end Poker
